import Mathlib

/-!
# Verification of the ibORB IDL compiler front end

Shallow embedding of the ibORB `iborb_idl` compiler (CORBA IDL to C++11):
the constant-expression folding performed by the recursive-descent parser,
the hierarchical symbol table (scopes, qualified-name resolution), the
parser's panic-mode error recovery, declarator handling, and the text
emission of the C++11 code generator.  All definitions are translated from
the C++ sources (`parser.cpp`, `symbol_table.cpp`, `cpp11_generator.cpp`);
theorems settle the specification claims about them.

Modelling conventions:
* `std::string` is modelled by `String`; C++ string concatenation by `++`.
* `int64_t` is modelled by `Int` (overflow is not modelled; the spec leaves
  integer overflow behaviour explicitly open).  C++ `/` and `%` on signed
  integers truncate towards zero, so they are modelled by `Int.tdiv` and
  `Int.tmod`.
* `double` is modelled by `Rat`.  The only claim touching floating-point
  division by zero concerns *whether the assignment to the folded value
  executes at all*; that control-flow fact is independent of the numeric
  carrier (IEEE division by zero produces ±inf/NaN, rational division by
  zero produces 0 — in both cases the assignment executes and the folded
  value is replaced).
* `std::unordered_map<std::string, Symbol>` is modelled by an association
  list `List (String × Symbol)`; `try_emplace` inserts only when the key is
  absent, which keeps keys pairwise distinct, so the list order never
  influences lookups.
* The non-owning `ast::ASTNode*` back-pointer inside `Symbol` is modelled
  by `Option ASTNodeRef`, recording exactly the payload the parser reads
  through the pointer (a `ConstNode`'s folded value).
-/

namespace IbOrb

/-! ## Constant values (`ast.hpp`, `ConstValue`)

`using ConstValue = std::variant<int64_t, uint64_t, double, std::string, bool>` -/

/-- The `ConstValue` variant from `ast.hpp`: signed 64-bit integer, unsigned
64-bit integer, double (modelled as `Rat`), string, boolean. -/
inductive ConstValue where
  | vInt (i : Int)
  | vUInt (u : Nat)
  | vDouble (d : Rat)
  | vStr (s : String)
  | vBool (b : Bool)
  deriving DecidableEq

/-- Binary operators of the multiplicative folding level
(`Parser::parseMulExpr`): `*`, `/`, `%`. -/
inductive MulOp where
  | star
  | slash
  | percent
  deriving DecidableEq

/-- Binary operators of the additive folding level
(`Parser::parseAddExpr`): `+`, `-`. -/
inductive AddOp where
  | plus
  | minus
  deriving DecidableEq

/-- One iteration of the folding loop in `Parser::parseAddExpr`
(parser.cpp, lines 960-993): the new value of `left` after combining with
the freshly parsed `right` operand.  `std::get_if<int64_t>` succeeds only
when both sides hold the `int64_t` alternative, `std::get_if<double>` only
when both hold `double`; every other combination leaves `left` unchanged. -/
def applyAdd (left : ConstValue) (op : AddOp) (right : ConstValue) : ConstValue :=
  match op, left, right with
  | .plus, .vInt l, .vInt r => .vInt (l + r)
  | .plus, .vDouble l, .vDouble r => .vDouble (l + r)
  | .minus, .vInt l, .vInt r => .vInt (l - r)
  | .minus, .vDouble l, .vDouble r => .vDouble (l - r)
  | _, l, _ => l

/-- One iteration of the folding loop in `Parser::parseMulExpr`
(parser.cpp, lines 995-1034).  Integer `/` and `%` are guarded by
`if (*r != 0)`; the double `/` branch carries no such guard; `%` has no
double branch at all. -/
def applyMul (left : ConstValue) (op : MulOp) (right : ConstValue) : ConstValue :=
  match op, left, right with
  | .star, .vInt l, .vInt r => .vInt (l * r)
  | .star, .vDouble l, .vDouble r => .vDouble (l * r)
  | .slash, .vInt l, .vInt r => if r ≠ 0 then .vInt (l.tdiv r) else .vInt l
  | .slash, .vDouble l, .vDouble r => .vDouble (l / r)
  | .percent, .vInt l, .vInt r => if r ≠ 0 then .vInt (l.tmod r) else .vInt l
  | _, l, _ => l

/-- `true` exactly when the two `ConstValue`s hold the same arithmetic
variant alternative (both `int64_t` or both `double`): the condition under
which a nested `std::get_if` pair in `parseAddExpr`/`parseMulExpr`
succeeds. -/
def sameArithAlt : ConstValue → ConstValue → Bool
  | .vInt _, .vInt _ => true
  | .vDouble _, .vDouble _ => true
  | _, _ => false

example : applyMul (.vInt 7) .slash (.vInt 0) = .vInt 7 := by decide
example : applyMul (.vInt 7) .percent (.vInt 0) = .vInt 7 := by decide
example : applyMul (.vDouble 1) .slash (.vDouble 0) = .vDouble 0 := by
  simp [applyMul]
example : applyAdd (.vInt 1) .plus (.vDouble 2) = .vInt 1 := by decide

/-! ## Symbol table (`symbol_table.hpp` / `symbol_table.cpp`) -/

/-- `SymbolKind` from `symbol_table.hpp`. -/
inductive SymbolKind where
  | module
  | interface
  | struct
  | union
  | enum
  | typedef
  | exception
  | constant
  | operation
  | attribute
  | parameter
  | enumValue
  deriving DecidableEq

/-- The payload reachable through a `Symbol`'s non-owning `ast::ASTNode*`
pointer, as far as the embedded code dereferences it:
`Parser::parsePrimaryExpr` casts the node of a `Constant` symbol to
`ConstNode*` and reads its folded `value`; every other node type is never
inspected through the pointer. -/
inductive ASTNodeRef where
  | constNode (value : ConstValue)
  | otherNode
  deriving DecidableEq

/-- `Symbol` from `symbol_table.hpp`: simple name, fully qualified name,
kind, optional AST back-reference, and the enclosing scope's fully
qualified name. -/
structure Symbol where
  name : String
  fullyQualifiedName : String
  kind : SymbolKind
  node : Option ASTNodeRef
  scope : String
  deriving DecidableEq

/-- `Scope` from `symbol_table.hpp`: name, stored fully qualified name, the
symbol map (`std::unordered_map<std::string, Symbol>`, modelled as an
association list — `try_emplace` keeps keys pairwise distinct), and the
owned child scopes in creation order.  The parent back-pointer of the C++
class is represented positionally: walking to the parent is modelled by
explicit ancestor chains (see `lookupChain`). -/
inductive Scope where
  | mk (name : String) (fullyQualifiedName : String)
      (symbols : List (String × Symbol)) (children : List Scope)

/-- Scope name accessor. -/
def Scope.name : Scope → String
  | .mk n _ _ _ => n

/-- Stored fully qualified name accessor. -/
def Scope.fullyQualifiedName : Scope → String
  | .mk _ f _ _ => f

/-- Symbol map accessor. -/
def Scope.symbols : Scope → List (String × Symbol)
  | .mk _ _ s _ => s

/-- Children accessor. -/
def Scope.children : Scope → List Scope
  | .mk _ _ _ c => c

/-- `Scope::lookupLocal` (symbol_table.cpp, lines 1465-1471): find the
symbol stored under `symbolName` in this scope only. -/
def Scope.lookupLocal (s : Scope) (symbolName : String) : Option Symbol :=
  (s.symbols.find? (fun p => p.1 == symbolName)).map Prod.snd

/-- `Scope::addSymbol` (symbol_table.cpp, lines 1460-1463):
`symbols.try_emplace(symbol.name, symbol)` — inserts only when the key is
absent and reports whether an insertion happened. -/
def Scope.addSymbol (s : Scope) (sym : Symbol) : Bool × Scope :=
  match s with
  | .mk n f syms ch =>
    if (syms.find? (fun p => p.1 == sym.name)).isSome then
      (false, .mk n f syms ch)
    else
      (true, .mk n f (syms ++ [(sym.name, sym)]) ch)

/-- `Scope::getChildScope` (symbol_table.cpp, lines 1492-1499): the first
owned child whose name matches. -/
def Scope.getChildScope (s : Scope) (childName : String) : Option Scope :=
  s.children.find? (fun c => c.name == childName)

/-- `Scope::lookup` (symbol_table.cpp, lines 1473-1483): check this scope,
then the parent chain.  The chain argument lists the scope itself first and
the global scope last, replacing the C++ parent pointers. -/
def lookupChain : List Scope → String → Option Symbol
  | [], _ => none
  | s :: rest, n =>
    match s.lookupLocal n with
    | some sym => some sym
    | none => lookupChain rest n

/-- The fully-qualified-name formula shared by the `Scope` constructor
(symbol_table.cpp, lines 1447-1458, non-null parent case) and
`SymbolTable::buildFullyQualifiedName` (lines 1608-1613): the parent's (or
current scope's) fully qualified name, `"::"`, and the simple name; just
the simple name when the former is empty. -/
def buildFqn (parentFqn name : String) : String :=
  if parentFqn = "" then name else parentFqn ++ "::" ++ name

/-- Walk a path of child-scope names downward via `getChildScope`,
modelling the descent loops of `SymbolTable::lookupScoped`
(symbol_table.cpp, lines 1581-1587). -/
def descendPath : Scope → List String → Option Scope
  | s, [] => some s
  | s, p :: rest =>
    match s.getChildScope p with
    | some c => descendPath c rest
    | none => none

/-- The ancestor walk of the relative multi-part case of
`SymbolTable::lookupScoped` (symbol_table.cpp, lines 1555-1577): starting
at the current scope and moving toward global, return the first child
scope named `p` found; `none` when no ancestor has one.  (The
`parts.size() == 1` test inside that C++ loop is unreachable: the
single-part relative case already returned at line 1550.) -/
def findAnchorChild : List Scope → String → Option Scope
  | [], _ => none
  | s :: rest, p =>
    match s.getChildScope p with
    | some c => some c
    | none => findAnchorChild rest p

/-- `SymbolTable::lookupScoped` (symbol_table.cpp, lines 1540-1591).
`g` is the global scope and `chain` the ancestor chain of the current
scope (current first, global last).
* empty `parts`: absent;
* absolute: descend from global through `parts[0..n-2]`, then
  `lookupLocal(parts[n-1])`;
* relative with a single part: `currentScope_->lookup(parts[0])`, i.e. a
  plain ancestor-chain symbol lookup;
* relative with several parts: find the first ancestor owning a child
  scope named `parts[0]`, descend from that child through
  `parts[1..n-2]`, then `lookupLocal(parts[n-1])`. -/
def lookupScoped (g : Scope) (chain : List Scope)
    (parts : List String) (isAbsolute : Bool) : Option Symbol :=
  match parts, isAbsolute with
  | [], _ => none
  | p :: rest, true =>
    match descendPath g ((p :: rest).dropLast) with
    | some sc => sc.lookupLocal ((p :: rest).getLast (by simp))
    | none => none
  | [p], false => lookupChain chain p
  | p :: q :: rest, false =>
    match findAnchorChild chain p with
    | none => none
    | some anchor =>
      match descendPath anchor ((q :: rest).dropLast) with
      | some sc => sc.lookupLocal ((q :: rest).getLast (by simp))
      | none => none

/-- `SymbolTable::parseQualifiedName`'s character loop
(symbol_table.cpp, lines 1625-1641): while characters remain, a `"::"` pair
(the C++ test `i + 1 < name.size() && name[i] == ':' && name[i+1] == ':'`)
flushes the non-empty current component; any other character is appended to
the current component; the final non-empty component is flushed at the
end. -/
def splitQualAux : List Char → List Char → List String
  | c1 :: c2 :: rest, cur =>
    if c1 = ':' ∧ c2 = ':' then
      (if cur = [] then [] else [String.mk cur]) ++ splitQualAux rest []
    else
      splitQualAux (c2 :: rest) (cur ++ [c1])
  | [c], cur => splitQualAux [] (cur ++ [c])
  | [], cur => if cur = [] then [] else [String.mk cur]

/-- `SymbolTable::parseQualifiedName` (symbol_table.cpp, lines 1615-1643):
skip a leading `"::"`, then split the rest on `"::"`. -/
def parseQualifiedName (name : String) : List String :=
  match name.data with
  | ':' :: ':' :: rest => splitQualAux rest []
  | l => splitQualAux l []

example : parseQualifiedName "A::B::C" = ["A", "B", "C"] := by decide
example : parseQualifiedName "::A::B" = ["A", "B"] := by decide
example : parseQualifiedName "x" = ["x"] := by decide
example : parseQualifiedName "" = [] := by decide

/-! ## The `SymbolTable` class

The C++ class holds the owned global scope and a raw `currentScope_`
pointer.  The pointer is modelled by the path of child-scope names leading
from the global scope to the current one; mutation through the pointer is
modelled by rebuilding the tree along that path (`updateAt`). -/

/-- The `Scope(name, parent)` constructor for a non-null parent
(symbol_table.cpp, lines 1447-1458), as invoked by
`Scope::createChildScope`: empty symbol map, no children, fully qualified
name derived from the parent. -/
def Scope.mkChild (parent : Scope) (childName : String) : Scope :=
  .mk childName (buildFqn parent.fullyQualifiedName childName) [] []

/-- `Scope::createChildScope` (symbol_table.cpp, lines 1485-1490): the new
child is appended to the `children` vector. -/
def Scope.addChild (s : Scope) (c : Scope) : Scope :=
  match s with
  | .mk n f syms ch => .mk n f syms (ch ++ [c])

/-- Replace the first child named `p` by its image under `f`; all other
children are untouched.  This models a mutation through the pointer that
`Scope::getChildScope` returned. -/
def updateFirstChild : List Scope → String → (Scope → Scope) → List Scope
  | [], _, _ => []
  | c :: cs, p, f =>
    if c.name == p then f c :: cs else c :: updateFirstChild cs p f

/-- Apply `f` to the scope at the end of `path` (a chain of child-scope
names), rebuilding the tree: the model of mutating `*currentScope_`. -/
def updateAt : Scope → List String → (Scope → Scope) → Scope
  | s, [], f => f s
  | .mk n fq syms ch, p :: rest, f =>
    .mk n fq syms (updateFirstChild ch p (fun c => updateAt c rest f))

/-- The ancestor chain of the scope reached by `path` (that scope first,
the global scope last): the explicit form of the C++ parent-pointer
chain.  Unreachable paths yield the partial chain walked so far. -/
def ancestorChain (g : Scope) : List String → List Scope
  | [] => [g]
  | p :: rest =>
    match g.getChildScope p with
    | some c => ancestorChain c rest ++ [g]
    | none => [g]

/-- The `SymbolTable` class state: the owned global scope tree and the
current-scope pointer as a path of child names. -/
structure SymbolTable where
  global : Scope
  currentPath : List String

/-- `SymbolTable::SymbolTable` (symbol_table.cpp, lines 1505-1508): the
global scope is `Scope("", nullptr)` (whose fully qualified name is the
empty string) and is current. -/
def SymbolTable.init : SymbolTable :=
  { global := .mk "" "" [] [], currentPath := [] }

/-- The scope `currentScope_` points at.  `none` cannot occur for states
reachable through the public operations. -/
def SymbolTable.currentScope (t : SymbolTable) : Option Scope :=
  descendPath t.global t.currentPath

/-- `SymbolTable::enterScope` (symbol_table.cpp, lines 1510-1518): re-use
an existing child scope of the same name, otherwise create one. -/
def SymbolTable.enterScope (t : SymbolTable) (scopeName : String) : SymbolTable :=
  match t.currentScope with
  | none => t
  | some cur =>
    if (cur.getChildScope scopeName).isSome then
      { t with currentPath := t.currentPath ++ [scopeName] }
    else
      { global := updateAt t.global t.currentPath
          (fun s => s.addChild (Scope.mkChild s scopeName)),
        currentPath := t.currentPath ++ [scopeName] }

/-- `SymbolTable::leaveScope` (symbol_table.cpp, lines 1520-1524): pop to
the parent; a no-op at the global scope (whose parent is null). -/
def SymbolTable.leaveScope (t : SymbolTable) : SymbolTable :=
  if t.currentPath = [] then t
  else { t with currentPath := t.currentPath.dropLast }

/-- `SymbolTable::getCurrentScopeName` (symbol_table.cpp, lines
1600-1602). -/
def SymbolTable.getCurrentScopeName (t : SymbolTable) : String :=
  match t.currentScope with
  | some cur => cur.fullyQualifiedName
  | none => ""

/-- `SymbolTable::buildFullyQualifiedName` (symbol_table.cpp, lines
1608-1613). -/
def SymbolTable.buildFullyQualifiedName (t : SymbolTable) (name : String) : String :=
  match t.currentScope with
  | some cur => buildFqn cur.fullyQualifiedName name
  | none => name

/-- `SymbolTable::addSymbol` (symbol_table.cpp, lines 1526-1534): build the
symbol (scope string and fully qualified name from the current scope) and
insert it into the current scope via `Scope::addSymbol`. -/
def SymbolTable.addSymbol (t : SymbolTable) (name : String) (kind : SymbolKind)
    (node : Option ASTNodeRef) : Bool × SymbolTable :=
  match t.currentScope with
  | none => (false, t)
  | some cur =>
    let sym : Symbol :=
      { name := name
        fullyQualifiedName := buildFqn cur.fullyQualifiedName name
        kind := kind
        node := node
        scope := cur.fullyQualifiedName }
    ((cur.addSymbol sym).1,
     { t with global := updateAt t.global t.currentPath (fun s => (s.addSymbol sym).2) })

/-- `SymbolTable::lookup` (symbol_table.cpp, lines 1536-1538). -/
def SymbolTable.lookup (t : SymbolTable) (name : String) : Option Symbol :=
  lookupChain (ancestorChain t.global t.currentPath) name

/-- `SymbolTable::lookupScoped` as a method of the table state. -/
def SymbolTable.lookupScoped (t : SymbolTable) (parts : List String)
    (isAbsolute : Bool) : Option Symbol :=
  IbOrb.lookupScoped t.global (ancestorChain t.global t.currentPath) parts isAbsolute

/-- The absoluteness test of `SymbolTable::lookupQualified`
(symbol_table.cpp, lines 1595-1596):
`qualifiedName.size() >= 2 && qualifiedName[0] == ':' && qualifiedName[1] == ':'`. -/
def qualIsAbsolute (qualifiedName : String) : Bool :=
  match qualifiedName.data with
  | ':' :: ':' :: _ => true
  | _ => false

/-- `SymbolTable::lookupQualified` (symbol_table.cpp, lines 1593-1598):
split the textual name, treat a leading `"::"` as absolute. -/
def SymbolTable.lookupQualified (t : SymbolTable) (qualifiedName : String) :
    Option Symbol :=
  t.lookupScoped (parseQualifiedName qualifiedName) (qualIsAbsolute qualifiedName)

/-! ### Replaying the parser's symbol-table traffic

During parsing the table is driven exclusively through `enterScope`,
`leaveScope` and `addSymbol` (parser.cpp).  Every name the parser passes is
the text of an `Identifier` token, hence non-empty and free of `':'`. -/

/-- A name the parser can pass to the symbol table: the text of an
identifier token (non-empty, contains no colon). -/
def validName (s : String) : Prop := s ≠ "" ∧ ':' ∉ s.data

instance (s : String) : Decidable (validName s) := by
  unfold validName; infer_instance

/-- One call into the symbol table during parsing. -/
inductive TableOp where
  | enter (scopeName : String)
  | leave
  | add (name : String) (kind : SymbolKind) (node : Option ASTNodeRef)

/-- The argument constraint parsing guarantees for each call. -/
def TableOp.valid : TableOp → Prop
  | .enter n => validName n
  | .leave => True
  | .add n _ _ => validName n

instance (op : TableOp) : Decidable op.valid := by
  cases op <;> (unfold TableOp.valid; infer_instance)

/-- Apply one symbol-table call. -/
def applyTableOp (t : SymbolTable) : TableOp → SymbolTable
  | .enter n => t.enterScope n
  | .leave => t.leaveScope
  | .add n k nd => (t.addSymbol n k nd).2

/-- Replay a sequence of symbol-table calls from a starting state. -/
def runOps (t : SymbolTable) (ops : List TableOp) : SymbolTable :=
  ops.foldl applyTableOp t

/-- A symbol is recorded somewhere in the scope tree. -/
inductive InTree : Scope → Symbol → Prop
  | here (s : Scope) (k : String) (sym : Symbol) (h : (k, sym) ∈ s.symbols) :
      InTree s sym
  | child (s c : Scope) (sym : Symbol) (hc : c ∈ s.children)
      (h : InTree c sym) : InTree s sym

/-! ### Qualified-name strings

`joinQual` is the specification-side description of the fully qualified
names the table builds incrementally: the `"::"`-join of the scope-name
path.  The lemmas below show that `buildFqn` extends such a join by one
component and that `parseQualifiedName` inverts it. -/

/-- The `"::"`-join of a list of name components. -/
def joinQual : List String → String
  | [] => ""
  | [n] => n
  | n :: ns => n ++ "::" ++ joinQual ns

theorem eq_empty_of_data_nil (a : String) (h : a.data = []) : a = "" :=
  String.ext (by simp [h])

theorem append_ne_empty_left (a b : String) (h : a ≠ "") : a ++ b ≠ "" := by
  intro hc
  apply h
  have hd := congrArg String.data hc
  rw [String.data_append] at hd
  exact eq_empty_of_data_nil a (List.append_eq_nil.mp hd).1

theorem joinQual_cons (n : String) (ns : List String) (h : ns ≠ []) :
    joinQual (n :: ns) = n ++ "::" ++ joinQual ns := by
  match ns with
  | [] => exact absurd rfl h
  | m :: ms => rfl

theorem joinQual_ne_empty (ns : List String) (h : ns ≠ [])
    (hv : ∀ n ∈ ns, n ≠ "") : joinQual ns ≠ "" := by
  match ns with
  | [n] => exact hv n (by simp)
  | n :: m :: ms =>
    rw [joinQual_cons n (m :: ms) (by simp)]
    exact append_ne_empty_left _ _
      (append_ne_empty_left _ _ (hv n (by simp)))

theorem joinQual_concat (p : List String) (n : String)
    (hp : ∀ m ∈ p, m ≠ "") :
    joinQual (p ++ [n]) = buildFqn (joinQual p) n := by
  induction p with
  | nil => simp [joinQual, buildFqn]
  | cons m p ih =>
    have hm : m ≠ "" := hp m (by simp)
    match p with
    | [] => simp [joinQual, buildFqn, hm]
    | q :: p2 =>
      have hp2 : ∀ x ∈ q :: p2, x ≠ "" := fun x hx => hp x (by simp [hx])
      have hne : joinQual (q :: p2) ≠ "" := joinQual_ne_empty _ (by simp) hp2
      rw [List.cons_append, joinQual_cons m ((q :: p2) ++ [n]) (by simp),
          ih hp2, joinQual_cons m (q :: p2) (by simp)]
      simp only [buildFqn]
      rw [if_neg hne,
          if_neg (append_ne_empty_left _ _ (append_ne_empty_left _ _ hm))]
      simp [String.append_assoc]

theorem splitQualAux_no_colon (cs : List Char) (t : List Char)
    (h : ∀ c ∈ cs, c ≠ ':') (cur : List Char) :
    splitQualAux (cs ++ t) cur = splitQualAux t (cur ++ cs) := by
  induction cs generalizing cur with
  | nil => simp
  | cons c cs ih =>
    have hc : c ≠ ':' := h c (by simp)
    have hcs : ∀ x ∈ cs, x ≠ ':' := fun x hx => h x (by simp [hx])
    rcases hct : cs ++ t with _ | ⟨d, rest⟩
    · rcases List.append_eq_nil.mp hct with ⟨hcs0, ht0⟩
      subst hcs0; subst ht0
      rfl
    · rw [List.cons_append, hct]
      show splitQualAux (c :: d :: rest) cur = _
      rw [splitQualAux, if_neg (by rintro ⟨h1, _⟩; exact hc h1), ← hct,
          ih hcs (cur ++ [c])]
      simp

theorem splitQualAux_sep (rest cur : List Char) :
    splitQualAux (':' :: ':' :: rest) cur =
      (if cur = [] then [] else [String.mk cur]) ++ splitQualAux rest [] := by
  rw [splitQualAux, if_pos ⟨rfl, rfl⟩]

theorem string_mk_data (s : String) : String.mk s.data = s := by
  cases s; rfl

theorem splitQual_join (ns : List String) (hne : ns ≠ [])
    (hv : ∀ n ∈ ns, validName n) :
    splitQualAux (joinQual ns).data [] = ns := by
  induction ns with
  | nil => exact absurd rfl hne
  | cons n ns ih =>
    have hn := hv n (by simp)
    have hndata : ∀ c ∈ n.data, c ≠ ':' := fun c hc hcc => hn.2 (hcc ▸ hc)
    have hd : n.data ≠ [] := fun h0 => hn.1 (eq_empty_of_data_nil n h0)
    rcases ns with _ | ⟨m, ms⟩
    · show splitQualAux n.data [] = [n]
      have h0 := splitQualAux_no_colon n.data [] hndata []
      simp only [List.append_nil, List.nil_append] at h0
      rw [h0]
      show (if n.data = [] then [] else [String.mk n.data]) = [n]
      rw [if_neg hd, string_mk_data]
    · rw [joinQual_cons n (m :: ms) (by simp)]
      have hdata : ((n ++ "::") ++ joinQual (m :: ms)).data
          = n.data ++ (':' :: ':' :: (joinQual (m :: ms)).data) := by
        simp only [String.data_append]
        show (n.data ++ [':', ':']) ++ _ = _
        simp
      rw [hdata, splitQualAux_no_colon n.data _ hndata [],
          List.nil_append, splitQualAux_sep, if_neg hd, string_mk_data,
          ih (by simp) (fun x hx => hv x (by simp [hx]))]
      rfl

theorem data_head_ne_colon (ns : List String) (n : String) (tl : List String)
    (hns : ns = n :: tl) (hv : ∀ x ∈ ns, validName x) :
    ∃ c cs, (joinQual ns).data = c :: cs ∧ c ≠ ':' := by
  subst hns
  have hn := hv n (by simp)
  obtain ⟨c, cs, hcons, hc⟩ : ∃ c cs, n.data = c :: cs ∧ c ≠ ':' := by
    rcases hnd : n.data with _ | ⟨c, cs⟩
    · exact absurd (eq_empty_of_data_nil n hnd) hn.1
    · exact ⟨c, cs, rfl, fun h => hn.2 (h ▸ (hnd ▸ List.mem_cons_self c cs))⟩
  rcases tl with _ | ⟨m, ms⟩
  · exact ⟨c, cs, by simpa [joinQual] using hcons, hc⟩
  · refine ⟨c, cs ++ (':' :: ':' :: (joinQual (m :: ms)).data), ?_, hc⟩
    rw [joinQual_cons n (m :: ms) (by simp)]
    simp only [String.data_append]
    show (n.data ++ [':', ':']) ++ _ = _
    rw [hcons]
    simp

theorem parseQualifiedName_eq_split (s : String)
    (h : ∀ r, s.data ≠ ':' :: ':' :: r) :
    parseQualifiedName s = splitQualAux s.data [] := by
  unfold parseQualifiedName
  split
  · rename_i r heq
    exact absurd heq (h r)
  · rfl

theorem parseQualifiedName_join (ns : List String) (hne : ns ≠ [])
    (hv : ∀ n ∈ ns, validName n) :
    parseQualifiedName (joinQual ns) = ns := by
  obtain ⟨n, tl, rfl⟩ : ∃ n tl, ns = n :: tl := by
    rcases ns with _ | ⟨n, tl⟩
    · exact absurd rfl hne
    · exact ⟨n, tl, rfl⟩
  obtain ⟨c, cs, hdata, hc⟩ := data_head_ne_colon (n :: tl) n tl rfl hv
  rw [parseQualifiedName_eq_split _ (by rw [hdata]; rintro r ⟨⟩; exact hc rfl)]
  exact splitQual_join _ hne hv

/-! ### The invariant maintained by parsing

`WFScope pfx s` says the subtree rooted at `s`, sitting at scope path
`pfx`, is well formed: stored fully qualified names are the `"::"`-joins
of the paths, symbol-map keys are the symbols' names and are distinct (a
consequence of `try_emplace`), child names are distinct (a consequence of
`enterScope` re-using existing children), and all names are identifier
text.  Parsing establishes it: the table starts empty and is touched only
through `enterScope` / `leaveScope` / `addSymbol` with identifier names. -/

inductive WFScope : List String → Scope → Prop
  | mk (pfx : List String) (n f : String)
      (syms : List (String × Symbol)) (ch : List Scope)
      (hname : n = pfx.getLastD "")
      (hf : f = joinQual pfx)
      (hsyms : ∀ k sym, (k, sym) ∈ syms → k = sym.name ∧ validName sym.name ∧
          sym.fullyQualifiedName = joinQual (pfx ++ [sym.name]) ∧
          sym.scope = joinQual pfx)
      (hkeys : (syms.map Prod.fst).Nodup)
      (hchn : (ch.map Scope.name).Nodup)
      (hchv : ∀ c ∈ ch, validName c.name)
      (hch : ∀ c ∈ ch, WFScope (pfx ++ [c.name]) c) :
      WFScope pfx (.mk n f syms ch)

theorem WFScope.fqn_eq {pfx : List String} {s : Scope}
    (h : WFScope pfx s) : s.fullyQualifiedName = joinQual pfx := by
  cases h with
  | mk _ _ _ _ _ _ hf _ _ _ _ _ => exact hf

theorem WFScope.name_eq {pfx : List String} {s : Scope}
    (h : WFScope pfx s) : s.name = pfx.getLastD "" := by
  cases h with
  | mk _ _ _ _ _ hname _ _ _ _ _ _ => exact hname

theorem WFScope.symbols_spec {pfx : List String} {s : Scope}
    (h : WFScope pfx s) : ∀ k sym, (k, sym) ∈ s.symbols →
      k = sym.name ∧ validName sym.name ∧
      sym.fullyQualifiedName = joinQual (pfx ++ [sym.name]) ∧
      sym.scope = joinQual pfx := by
  cases h with
  | mk _ _ _ _ _ _ _ hsyms _ _ _ _ => exact hsyms

theorem WFScope.keys_nodup {pfx : List String} {s : Scope}
    (h : WFScope pfx s) : (s.symbols.map Prod.fst).Nodup := by
  cases h with
  | mk _ _ _ _ _ _ _ _ hkeys _ _ _ => exact hkeys

theorem WFScope.childNames_nodup {pfx : List String} {s : Scope}
    (h : WFScope pfx s) : (s.children.map Scope.name).Nodup := by
  cases h with
  | mk _ _ _ _ _ _ _ _ _ hchn _ _ => exact hchn

theorem WFScope.childNames_valid {pfx : List String} {s : Scope}
    (h : WFScope pfx s) : ∀ c ∈ s.children, validName c.name := by
  cases h with
  | mk _ _ _ _ _ _ _ _ _ _ hchv _ => exact hchv

theorem WFScope.children_wf {pfx : List String} {s : Scope}
    (h : WFScope pfx s) : ∀ c ∈ s.children, WFScope (pfx ++ [c.name]) c := by
  cases h with
  | mk _ _ _ _ _ _ _ _ _ _ _ hch => exact hch

/-- With pairwise distinct child names, `getChildScope` finds exactly the
member child with the requested name. -/
theorem getChildScope_eq_of_mem (ch : List Scope) (c : Scope)
    (hnodup : (ch.map Scope.name).Nodup) (hmem : c ∈ ch) :
    ch.find? (fun x => x.name == c.name) = some c := by
  induction ch with
  | nil => cases hmem
  | cons d ds ih =>
    rw [List.map_cons, List.nodup_cons] at hnodup
    rcases List.mem_cons.mp hmem with rfl | hmem2
    · rw [List.find?_cons_of_pos _ (by simp)]
    · rw [List.find?_cons_of_neg _ (by
        simp only [beq_iff_eq]
        intro h
        exact hnodup.1 (h ▸ List.mem_map_of_mem Scope.name hmem2))]
      exact ih hnodup.2 hmem2

/-- With pairwise distinct keys, `find?` over the symbol map returns the
member entry for its key. -/
theorem find?_entry_of_nodup (syms : List (String × Symbol)) (k : String)
    (v : Symbol) (hnodup : (syms.map Prod.fst).Nodup)
    (hmem : (k, v) ∈ syms) :
    syms.find? (fun p => p.1 == k) = some (k, v) := by
  induction syms with
  | nil => cases hmem
  | cons d ds ih =>
    rw [List.map_cons, List.nodup_cons] at hnodup
    rcases List.mem_cons.mp hmem with rfl | hmem2
    · rw [List.find?_cons_of_pos _ (by simp)]
    · rw [List.find?_cons_of_neg _ (by
        simp only [beq_iff_eq]
        intro h
        exact hnodup.1 (h ▸ List.mem_map_of_mem Prod.fst hmem2))]
      exact ih hnodup.2 hmem2

theorem descendPath_append (s : Scope) (p q : List String) :
    descendPath s (p ++ q) = (descendPath s p).bind (fun x => descendPath x q) := by
  induction p generalizing s with
  | nil => simp [descendPath]
  | cons a p ih =>
    rw [List.cons_append, descendPath, descendPath]
    cases s.getChildScope a with
    | none => simp
    | some c => simp [ih c]

/-- Descending a path of a well-formed tree lands on a well-formed
subtree. -/
theorem wf_descend {pfx : List String} {g : Scope} (hwf : WFScope pfx g)
    {path : List String} {s : Scope} (hdesc : descendPath g path = some s) :
    WFScope (pfx ++ path) s := by
  induction path generalizing pfx g with
  | nil =>
    simp only [descendPath, Option.some.injEq] at hdesc
    simpa [hdesc.symm] using hwf
  | cons p rest ih =>
    rw [descendPath] at hdesc
    rcases hc : g.getChildScope p with _ | c
    · rw [hc] at hdesc; cases hdesc
    · rw [hc] at hdesc
      have hcmem := List.mem_of_find?_eq_some hc
      have hcname : c.name = p := by
        have := List.find?_some hc
        simpa using this
      have hcwf := hwf.children_wf c hcmem
      rw [hcname] at hcwf
      have := ih hcwf hdesc
      simpa [List.append_assoc] using this

/-- Every name along a valid path of a well-formed tree is identifier
text. -/
theorem path_names_valid {pfx : List String} {g : Scope} (hwf : WFScope pfx g)
    {path : List String} {s : Scope} (hdesc : descendPath g path = some s) :
    ∀ m ∈ path, validName m := by
  induction path generalizing pfx g with
  | nil => intro m hm; cases hm
  | cons p rest ih =>
    rw [descendPath] at hdesc
    rcases hc : g.getChildScope p with _ | c
    · rw [hc] at hdesc; cases hdesc
    · rw [hc] at hdesc
      have hcmem := List.mem_of_find?_eq_some hc
      have hcname : c.name = p := by simpa using List.find?_some hc
      have hcvalid := hwf.childNames_valid c hcmem
      have hcwf := hwf.children_wf c hcmem
      intro m hm
      rcases List.mem_cons.mp hm with rfl | hm2
      · exact hcname ▸ hcvalid
      · exact ih hcwf hdesc m hm2

/-- A symbol recorded anywhere in a well-formed tree sits at the end of a
concrete descent path, keyed by its own name. -/
theorem inTree_to_path {g : Scope} {sym : Symbol} (hin : InTree g sym) :
    ∀ pfx, WFScope pfx g →
      ∃ q s, descendPath g q = some s ∧ WFScope (pfx ++ q) s ∧
        (sym.name, sym) ∈ s.symbols := by
  induction hin with
  | here s k sym h =>
    intro pfx hwf
    have hk := (hwf.symbols_spec k sym h).1
    exact ⟨[], s, rfl, by simpa using hwf, hk ▸ h⟩
  | child s c sym hc _ ih =>
    intro pfx hwf
    have hcwf := hwf.children_wf c hc
    obtain ⟨q, s2, hdesc, hwf2, hmem⟩ := ih (pfx ++ [c.name]) hcwf
    refine ⟨c.name :: q, s2, ?_, ?_, hmem⟩
    · rw [descendPath,
        show s.getChildScope c.name = some c from
          getChildScope_eq_of_mem s.children c hwf.childNames_nodup hc]
      exact hdesc
    · simpa [List.append_assoc] using hwf2

/-! ### Updates through the current-scope pointer preserve the invariant -/

theorem updateAt_cons_name (s : Scope) (p : String) (rest : List String)
    (f : Scope → Scope) : (updateAt s (p :: rest) f).name = s.name := by
  cases s; rfl

theorem addChild_name (s : Scope) (c : Scope) : (s.addChild c).name = s.name := by
  cases s; rfl

theorem addSymbol_snd_name (s : Scope) (sym : Symbol) :
    ((s.addSymbol sym).2).name = s.name := by
  cases s with
  | mk n f syms ch =>
    show ((Scope.mk n f syms ch).addSymbol sym).2.name = n
    rw [Scope.addSymbol]
    split <;> rfl

/-- `updateFirstChild` splits the child list at the first name match. -/
theorem updateFirstChild_eq (ch : List Scope) (p : String) (h : Scope → Scope)
    (c : Scope) (hfind : ch.find? (fun x => x.name == p) = some c) :
    ∃ ch1 ch2, ch = ch1 ++ c :: ch2 ∧
      updateFirstChild ch p h = ch1 ++ h c :: ch2 ∧
      (∀ x ∈ ch1, (x.name == p) = false) ∧ (c.name == p) = true := by
  induction ch with
  | nil => cases hfind
  | cons d ds ih =>
    rw [List.find?_cons] at hfind
    cases hd : d.name == p with
    | true =>
      simp only [hd, cond_true, Option.some.injEq] at hfind
      subst hfind
      exact ⟨[], ds, rfl, by rw [updateFirstChild, if_pos hd]; rfl, by simp, hd⟩
    | false =>
      simp only [hd, cond_false] at hfind
      obtain ⟨ch1, ch2, heq, hupd, hch1, hc⟩ := ih hfind
      refine ⟨d :: ch1, ch2, by rw [heq]; rfl, ?_, ?_, hc⟩
      · rw [updateFirstChild, if_neg (by simp [hd]), hupd]; rfl
      · intro x hx
        rcases List.mem_cons.mp hx with rfl | hx2
        · exact hd
        · exact hch1 x hx2

theorem find?_updateFirstChild (ch : List Scope) (p : String)
    (h : Scope → Scope) (c : Scope)
    (hfind : ch.find? (fun x => x.name == p) = some c)
    (hname : (h c).name = c.name) :
    (updateFirstChild ch p h).find? (fun x => x.name == p) = some (h c) := by
  obtain ⟨ch1, ch2, _, hupd, hch1, hc⟩ := updateFirstChild_eq ch p h c hfind
  rw [hupd, List.find?_append]
  have h1 : ch1.find? (fun x => x.name == p) = none :=
    List.find?_eq_none.mpr (fun x hx => by simp [hch1 x hx])
  rw [h1]
  simp only [Option.none_or]
  rw [List.find?_cons_of_pos _ (by rw [hname]; exact hc)]

/-- The name of the scope an update lands on, for the two shapes of the
updating functions used by `enterScope` and `addSymbol`. -/
theorem updateAt_target_name (c : Scope) (rest : List String) (f : Scope → Scope)
    (hf : ∀ s, (f s).name = s.name) :
    (updateAt c rest f).name = c.name := by
  cases rest with
  | nil => rw [updateAt]; exact hf c
  | cons r rs => exact updateAt_cons_name c r rs f

/-- Descending the updated tree along the updated path reaches the image of
the old target, provided the update preserves the target's name. -/
theorem descend_updateAt {g : Scope} (path : List String) (f : Scope → Scope)
    {cur : Scope} (hdesc : descendPath g path = some cur)
    (hf : ∀ s, (f s).name = s.name) :
    descendPath (updateAt g path f) path = some (f cur) := by
  induction path generalizing g with
  | nil =>
    simp only [descendPath, Option.some.injEq] at hdesc
    rw [← hdesc, updateAt]
    rfl
  | cons p rest ih =>
    obtain ⟨n, fq, syms, ch⟩ := g
    rw [descendPath] at hdesc
    rcases hc : (Scope.mk n fq syms ch).getChildScope p with _ | c
    · rw [hc] at hdesc; cases hdesc
    · rw [hc] at hdesc
      rw [updateAt]
      rw [descendPath]
      have hcn : ((fun x => updateAt x rest f) c).name = c.name :=
        updateAt_target_name c rest f hf
      rw [show (Scope.mk n fq syms
            (updateFirstChild ch p (fun x => updateAt x rest f))).getChildScope p
          = some (updateAt c rest f) from
        find?_updateFirstChild ch p _ c hc hcn]
      exact ih hdesc

/-- Updating the scope at the end of a valid path with a name-preserving,
well-formedness-preserving function keeps the whole tree well formed. -/
theorem wf_updateAt {pfx : List String} {g : Scope} (hwf : WFScope pfx g)
    (path : List String) (f : Scope → Scope) {cur : Scope}
    (hdesc : descendPath g path = some cur)
    (hf : ∀ s, (f s).name = s.name)
    (hfwf : WFScope (pfx ++ path) cur → WFScope (pfx ++ path) (f cur)) :
    WFScope pfx (updateAt g path f) := by
  induction path generalizing pfx g with
  | nil =>
    simp only [descendPath, Option.some.injEq] at hdesc
    subst hdesc
    rw [updateAt]
    simpa using hfwf (by simpa using hwf)
  | cons p rest ih =>
    obtain ⟨n, fq, syms, ch⟩ := g
    rw [descendPath] at hdesc
    rcases hc : (Scope.mk n fq syms ch).getChildScope p with _ | c
    · rw [hc] at hdesc; cases hdesc
    · rw [hc] at hdesc
      have hcmem := List.mem_of_find?_eq_some hc
      have hcname : c.name = p := by simpa using List.find?_some hc
      rw [updateAt]
      obtain ⟨ch1, ch2, heq, hupd, -, -⟩ :=
        updateFirstChild_eq ch p (fun x => updateAt x rest f) c hc
      have hcwf : WFScope (pfx ++ [c.name]) c := hwf.children_wf c hcmem
      have hnewwf : WFScope (pfx ++ [c.name]) (updateAt c rest f) := by
        apply ih hcwf hdesc
        have : (pfx ++ [c.name]) ++ rest = pfx ++ (p :: rest) := by
          rw [hcname]; simp
        rw [this]
        exact hfwf
      have hnewname : (updateAt c rest f).name = c.name :=
        updateAt_target_name c rest f hf
      cases hwf with
      | mk _ _ _ _ _ hname hfqn hsyms hkeys hchn hchv hch =>
        refine WFScope.mk pfx n fq syms _ hname hfqn hsyms hkeys ?_ ?_ ?_
        · rw [hupd]
          have hnames : (ch1 ++ updateAt c rest f :: ch2).map Scope.name
              = ch.map Scope.name := by
            rw [heq]
            simp [hnewname]
          rw [hnames]
          exact hchn
        · intro x hx
          rw [hupd] at hx
          rcases List.mem_append.mp hx with hx1 | hx2
          · exact hchv x (heq ▸ List.mem_append_left _ hx1)
          · rcases List.mem_cons.mp hx2 with rfl | hx3
            · rw [hnewname]
              exact hchv c hcmem
            · exact hchv x (heq ▸ List.mem_append_right _ (List.mem_cons_of_mem _ hx3))
        · intro x hx
          rw [hupd] at hx
          rcases List.mem_append.mp hx with hx1 | hx2
          · exact hch x (heq ▸ List.mem_append_left _ hx1)
          · rcases List.mem_cons.mp hx2 with rfl | hx3
            · rw [hnewname]
              exact hnewwf
            · exact hch x (heq ▸ List.mem_append_right _ (List.mem_cons_of_mem _ hx3))

/-- The table invariant: the global tree is well formed and the
current-scope pointer designates an existing scope. -/
def TableInv (t : SymbolTable) : Prop :=
  WFScope [] t.global ∧ ∃ cur, descendPath t.global t.currentPath = some cur

theorem inv_init : TableInv SymbolTable.init := by
  refine ⟨?_, ⟨_, rfl⟩⟩
  refine WFScope.mk [] "" "" [] [] rfl rfl ?_ ?_ ?_ ?_ ?_
  · intro k sym h; cases h
  · simp
  · simp
  · intro c hc; cases hc
  · intro c hc; cases hc

theorem names_ne_empty_of_valid {path : List String}
    (h : ∀ m ∈ path, validName m) : ∀ m ∈ path, m ≠ "" :=
  fun m hm => (h m hm).1

theorem getChildScope_addChild (s : Scope) (c : Scope) (n : String)
    (hnone : s.getChildScope n = none) (hcn : (c.name == n) = true) :
    (s.addChild c).getChildScope n = some c := by
  obtain ⟨sn, sf, ss, sch⟩ := s
  simp only [Scope.addChild, Scope.getChildScope, Scope.children] at hnone ⊢
  rw [List.find?_append, hnone]
  simp [List.find?_cons, hcn]

theorem inv_enter {t : SymbolTable} (hinv : TableInv t) (n : String)
    (hn : validName n) : TableInv (t.enterScope n) := by
  obtain ⟨hwf, cur, hdesc⟩ := hinv
  have hnames : ∀ m ∈ t.currentPath, validName m := path_names_valid hwf hdesc
  rw [SymbolTable.enterScope]
  simp only [SymbolTable.currentScope, hdesc]
  by_cases hex : (cur.getChildScope n).isSome
  · rw [if_pos hex]
    obtain ⟨c, hc⟩ := Option.isSome_iff_exists.mp hex
    refine ⟨hwf, c, ?_⟩
    rw [descendPath_append, hdesc]
    show descendPath cur [n] = some c
    rw [descendPath, hc]
    rfl
  · rw [if_neg hex]
    have hnone : cur.getChildScope n = none := by
      cases h : cur.getChildScope n with
      | none => rfl
      | some c => rw [h] at hex; exact absurd rfl hex
    have hf : ∀ s : Scope, (s.addChild (Scope.mkChild s n)).name = s.name :=
      fun s => addChild_name s _
    have hcurwf0 : WFScope t.currentPath cur := by
      have := wf_descend hwf hdesc
      simpa using this
    have hfwf : WFScope ([] ++ t.currentPath) cur →
        WFScope ([] ++ t.currentPath) (cur.addChild (Scope.mkChild cur n)) := by
      intro hcurwf
      simp only [List.nil_append] at hcurwf ⊢
      cases hcurwf with
      | mk _ cn cf csyms cch hname hfq hsyms hkeys hchn hchv hch =>
        have hnotin : ∀ c ∈ cch, (c.name == n) = false := by
          intro c hc
          have := List.find?_eq_none.mp hnone c hc
          simpa using this
        refine WFScope.mk _ cn cf csyms _ hname hfq hsyms hkeys ?_ ?_ ?_
        · rw [List.map_append]
          simp only [List.map_cons, List.map_nil]
          rw [List.nodup_append]
          refine ⟨hchn, List.nodup_singleton _, ?_⟩
          intro x hx hy
          simp only [Scope.mkChild, Scope.name, List.mem_singleton] at hy
          subst hy
          obtain ⟨c, hc, hcn⟩ := List.mem_map.mp hx
          have := hnotin c hc
          rw [hcn] at this
          simp at this
        · intro c hc
          rcases List.mem_append.mp hc with h1 | h2
          · exact hchv c h1
          · simp only [List.mem_singleton] at h2
            subst h2
            simpa [Scope.mkChild, Scope.name] using hn
        · intro c hc
          rcases List.mem_append.mp hc with h1 | h2
          · exact hch c h1
          · simp only [List.mem_singleton] at h2
            subst h2
            show WFScope (t.currentPath ++ [Scope.name (.mk n _ [] [])]) _
            simp only [Scope.mkChild, Scope.name]
            refine WFScope.mk _ n _ [] [] (by simp) ?_ ?_ ?_ ?_ ?_ ?_
            · show buildFqn cf n = joinQual (t.currentPath ++ [n])
              rw [joinQual_concat _ _ (names_ne_empty_of_valid hnames), hfq]
            · intro k sym h; cases h
            · simp
            · simp
            · intro c hc; cases hc
            · intro c hc; cases hc
    refine ⟨wf_updateAt hwf _ _ hdesc hf hfwf, Scope.mkChild cur n, ?_⟩
    have hdesc2 := descend_updateAt t.currentPath
      (fun s => s.addChild (Scope.mkChild s n)) hdesc hf
    rw [descendPath_append, hdesc2]
    show descendPath (cur.addChild (Scope.mkChild cur n)) [n]
      = some (Scope.mkChild cur n)
    rw [descendPath,
        getChildScope_addChild cur _ n hnone (by simp [Scope.mkChild, Scope.name])]
    rfl

theorem inv_leave {t : SymbolTable} (hinv : TableInv t) :
    TableInv t.leaveScope := by
  obtain ⟨hwf, cur, hdesc⟩ := hinv
  rw [SymbolTable.leaveScope]
  by_cases hp : t.currentPath = []
  · rw [if_pos hp]; exact ⟨hwf, cur, hdesc⟩
  · rw [if_neg hp]
    refine ⟨hwf, ?_⟩
    show ∃ c, descendPath t.global t.currentPath.dropLast = some c
    have hsplit : t.currentPath.dropLast ++ [t.currentPath.getLast hp]
        = t.currentPath := List.dropLast_append_getLast hp
    rw [← hsplit, descendPath_append] at hdesc
    rcases hd2 : descendPath t.global t.currentPath.dropLast with _ | s
    · rw [hd2] at hdesc
      simp at hdesc
    · exact ⟨s, rfl⟩

theorem addSymbol_snd_wf {path : List String} {cur : Scope}
    (hcurwf : WFScope path cur) (sym : Symbol)
    (hname : validName sym.name)
    (hfqn : sym.fullyQualifiedName = joinQual (path ++ [sym.name]))
    (hscope : sym.scope = joinQual path) :
    WFScope path ((cur.addSymbol sym).2) := by
  cases hcurwf with
  | mk _ cn cf csyms cch hn hfq hsyms hkeys hchn hchv hch =>
    rw [Scope.addSymbol]
    by_cases hdup : (csyms.find? (fun p => p.1 == sym.name)).isSome
    · rw [if_pos hdup]
      exact WFScope.mk _ cn cf csyms cch hn hfq hsyms hkeys hchn hchv hch
    · rw [if_neg hdup]
      have hnone : csyms.find? (fun p => p.1 == sym.name) = none := by
        cases h : csyms.find? (fun p => p.1 == sym.name) with
        | none => rfl
        | some c => rw [h] at hdup; exact absurd rfl hdup
      refine WFScope.mk _ cn cf _ cch hn hfq ?_ ?_ hchn hchv hch
      · intro k s hk
        rcases List.mem_append.mp hk with h1 | h2
        · exact hsyms k s h1
        · simp only [List.mem_singleton, Prod.mk.injEq] at h2
          obtain ⟨rfl, rfl⟩ := h2
          exact ⟨rfl, hname, hfqn, hscope⟩
      · rw [List.map_append]
        simp only [List.map_cons, List.map_nil]
        rw [List.nodup_append]
        refine ⟨hkeys, List.nodup_singleton _, ?_⟩
        intro x hx hy
        simp only [List.mem_singleton] at hy
        subst hy
        obtain ⟨pr, hpr, hpr1⟩ := List.mem_map.mp hx
        have := List.find?_eq_none.mp hnone pr hpr
        rw [hpr1] at this
        simp at this

theorem inv_add {t : SymbolTable} (hinv : TableInv t) (name : String)
    (kind : SymbolKind) (node : Option ASTNodeRef) (hn : validName name) :
    TableInv (t.addSymbol name kind node).2 := by
  obtain ⟨hwf, cur, hdesc⟩ := hinv
  have hnames : ∀ m ∈ t.currentPath, validName m := path_names_valid hwf hdesc
  have hcurwf0 : WFScope t.currentPath cur := by
    have := wf_descend hwf hdesc
    simpa using this
  rw [SymbolTable.addSymbol]
  simp only [SymbolTable.currentScope, hdesc]
  constructor
  · apply wf_updateAt hwf _ _ hdesc (fun s => addSymbol_snd_name s _)
    intro hcurwf
    simp only [List.nil_append] at hcurwf ⊢
    apply addSymbol_snd_wf hcurwf _ hn
    · show buildFqn cur.fullyQualifiedName name = joinQual (t.currentPath ++ [name])
      rw [hcurwf0.fqn_eq, joinQual_concat _ _ (names_ne_empty_of_valid hnames)]
    · show cur.fullyQualifiedName = joinQual t.currentPath
      exact hcurwf0.fqn_eq
  · exact ⟨_, descend_updateAt t.currentPath _ hdesc (fun s => addSymbol_snd_name s _)⟩

theorem inv_applyOp {t : SymbolTable} (hinv : TableInv t) (op : TableOp)
    (hop : op.valid) : TableInv (applyTableOp t op) := by
  cases op with
  | enter n => exact inv_enter hinv n hop
  | leave => exact inv_leave hinv
  | add n k nd => exact inv_add hinv n k nd hop

theorem inv_runOps (ops : List TableOp) (hops : ∀ op ∈ ops, op.valid)
    {t : SymbolTable} (hinv : TableInv t) : TableInv (runOps t ops) := by
  induction ops generalizing t with
  | nil => exact hinv
  | cons op ops ih =>
    exact ih (fun o ho => hops o (List.mem_cons_of_mem _ ho))
      (inv_applyOp hinv op (hops op (List.mem_cons_self _ _)))

/-! ### The round trip itself -/

theorem qualIsAbsolute_false (s : String)
    (h : ∀ r, s.data ≠ ':' :: ':' :: r) : qualIsAbsolute s = false := by
  unfold qualIsAbsolute
  split
  · rename_i r heq
    exact absurd heq (h r)
  · rfl

theorem lookupLocal_of_mem {pfx : List String} {s : Scope}
    (hwf : WFScope pfx s) {sym : Symbol}
    (hmem : (sym.name, sym) ∈ s.symbols) :
    s.lookupLocal sym.name = some sym := by
  rw [Scope.lookupLocal,
      find?_entry_of_nodup s.symbols sym.name sym hwf.keys_nodup hmem]
  rfl

/-- The heart of the scope round trip: in a well-formed tree queried from
the global scope (the post-parsing state of the table), every recorded
symbol is found again under its own fully qualified name. -/
theorem lookupQualified_of_wf (g : Scope) (hwf : WFScope [] g) (sym : Symbol)
    (hin : InTree g sym) :
    SymbolTable.lookupQualified ⟨g, []⟩ sym.fullyQualifiedName = some sym := by
  obtain ⟨q, s, hdesc, hwfs, hmem⟩ := inTree_to_path hin [] hwf
  simp only [List.nil_append] at hwfs
  have hspec := hwfs.symbols_spec sym.name sym hmem
  have hsymvalid : validName sym.name := hspec.2.1
  have hfqn : sym.fullyQualifiedName = joinQual (q ++ [sym.name]) := hspec.2.2.1
  have hqnames : ∀ m ∈ q, validName m := path_names_valid hwf hdesc
  have hnsvalid : ∀ x ∈ q ++ [sym.name], validName x := by
    intro x hx
    rcases List.mem_append.mp hx with h1 | h2
    · exact hqnames x h1
    · simp only [List.mem_singleton] at h2
      subst h2
      exact hsymvalid
  obtain ⟨n0, tl0, hns⟩ : ∃ n0 tl0, q ++ [sym.name] = n0 :: tl0 := by
    rcases hq : q ++ [sym.name] with _ | ⟨a, b⟩
    · exact absurd hq (by simp)
    · exact ⟨a, b, rfl⟩
  obtain ⟨c0, cs0, hdata, hc0⟩ :=
    data_head_ne_colon (q ++ [sym.name]) n0 tl0 hns hnsvalid
  rw [hfqn, SymbolTable.lookupQualified,
      qualIsAbsolute_false _ (by rw [hdata]; rintro r ⟨⟩; exact hc0 rfl),
      parseQualifiedName_join _ (by simp) hnsvalid]
  show lookupScoped g (ancestorChain g []) (q ++ [sym.name]) false = some sym
  rcases q with _ | ⟨a, q2⟩
  · -- symbol recorded in the global scope itself
    simp only [descendPath, Option.some.injEq] at hdesc
    subst hdesc
    show lookupScoped g [g] [sym.name] false = some sym
    rw [lookupScoped, lookupChain, lookupLocal_of_mem hwfs hmem]
  · -- symbol recorded in a nested scope
    rcases hq2 : q2 ++ [sym.name] with _ | ⟨b, rest⟩
    · exact absurd hq2 (by simp)
    · show lookupScoped g [g] (a :: (q2 ++ [sym.name])) false = some sym
      rw [hq2, lookupScoped]
      rw [descendPath] at hdesc
      rcases hca : g.getChildScope a with _ | ca
      · rw [hca] at hdesc; cases hdesc
      · rw [hca] at hdesc
        have hdesc2 : descendPath ca q2 = some s := hdesc
        have hdl : (b :: rest).dropLast = q2 := by
          rw [← hq2, List.dropLast_concat]
        have hgl : (b :: rest).getLast (by simp) = sym.name := by
          have h1 : (b :: rest).getLast? = some sym.name := by
            rw [← hq2]
            simp
          rw [List.getLast?_eq_getLast (b :: rest) (by simp)] at h1
          exact Option.some.inj h1
        rw [show findAnchorChild [g] a = some ca by rw [findAnchorChild, hca]]
        show (match descendPath ca ((b :: rest).dropLast) with
          | some sc => sc.lookupLocal ((b :: rest).getLast (by simp))
          | none => none) = some sym
        rw [hdl, hdesc2]
        show s.lookupLocal ((b :: rest).getLast (by simp)) = some sym
        rw [hgl, lookupLocal_of_mem hwfs hmem]

/-- C1: after parsing (any sequence of `enterScope`/`leaveScope`/`addSymbol`
calls with identifier names that returns to the global scope), every symbol
recorded anywhere in the table is returned by `lookupQualified` applied to
its own fully qualified name; moreover the fully qualified name of every
scope, and of every recorded symbol (built via `buildFullyQualifiedName`),
is the parent scope's fully qualified name + `"::"` + the simple name, or
just the simple name when the parent is the global scope. -/
theorem scope_round_trip (ops : List TableOp) (hops : ∀ op ∈ ops, op.valid)
    (hdone : (runOps SymbolTable.init ops).currentPath = [])
    (sym : Symbol) (hrec : InTree (runOps SymbolTable.init ops).global sym) :
    (runOps SymbolTable.init ops).lookupQualified sym.fullyQualifiedName
        = some sym ∧
    (∀ q s c, descendPath (runOps SymbolTable.init ops).global q = some s →
      c ∈ s.children →
      c.fullyQualifiedName =
        if q = [] then c.name else s.fullyQualifiedName ++ "::" ++ c.name) ∧
    (∀ q s k x, descendPath (runOps SymbolTable.init ops).global q = some s →
      (k, x) ∈ s.symbols →
      x.fullyQualifiedName =
        if q = [] then x.name else s.fullyQualifiedName ++ "::" ++ x.name) := by
  obtain ⟨hwf, -⟩ := inv_runOps ops hops inv_init
  refine ⟨?_, ?_, ?_⟩
  · rw [show runOps SymbolTable.init ops
        = (⟨(runOps SymbolTable.init ops).global, []⟩ : SymbolTable) from by
      rw [← hdone]]
    exact lookupQualified_of_wf _ hwf sym hrec
  · intro q s c hq hc
    have hswf : WFScope q s := by simpa using wf_descend hwf hq
    have hqn : ∀ m ∈ q, m ≠ "" :=
      names_ne_empty_of_valid (path_names_valid hwf hq)
    have hcwf := hswf.children_wf c hc
    rw [hcwf.fqn_eq, joinQual_concat q c.name hqn, hswf.fqn_eq, buildFqn]
    by_cases hql : q = []
    · subst hql
      simp [joinQual]
    · rw [if_neg (joinQual_ne_empty q hql hqn), if_neg hql]
  · intro q s k x hq hx
    have hswf : WFScope q s := by simpa using wf_descend hwf hq
    have hqn : ∀ m ∈ q, m ≠ "" :=
      names_ne_empty_of_valid (path_names_valid hwf hq)
    have hspec := hswf.symbols_spec k x hx
    rw [hspec.2.2.1, joinQual_concat q x.name hqn, hswf.fqn_eq, buildFqn]
    by_cases hql : q = []
    · subst hql
      simp [joinQual]
    · rw [if_neg (joinQual_ne_empty q hql hqn), if_neg hql]

/-- The symbol-table traffic of parsing `module M { const long C = 7; };`. -/
def demoOps : List TableOp :=
  [.add "M" .module none,
   .enter "M",
   .add "C" .constant (some (.constNode (.vInt 7))),
   .leave]

/-- The symbol the demo run records for `M::C`. -/
def demoSymC : Symbol :=
  { name := "C"
    fullyQualifiedName := "M::C"
    kind := .constant
    node := some (.constNode (.vInt 7))
    scope := "M" }

/-- The symbol the demo run records for `M`. -/
def demoSymM : Symbol :=
  { name := "M"
    fullyQualifiedName := "M"
    kind := .module
    node := none
    scope := "" }

theorem demo_global_eq : (runOps SymbolTable.init demoOps).global
    = Scope.mk "" "" [("M", demoSymM)]
        [Scope.mk "M" "M" [("C", demoSymC)] []] := rfl

/-- Witness for C1 at a concrete run: the table produced by parsing
`module M { const long C = 7; };` maps `"M::C"` back to the recorded
symbol. -/
theorem scope_round_trip_witness :
    (runOps SymbolTable.init demoOps).lookupQualified "M::C" = some demoSymC := by
  have hrec : InTree (runOps SymbolTable.init demoOps).global demoSymC := by
    rw [demo_global_eq]
    exact InTree.child _ _ _ (List.mem_singleton.mpr rfl)
      (InTree.here _ "C" demoSymC (List.mem_singleton.mpr rfl))
  have h := (scope_round_trip demoOps (by
    intro op hop
    fin_cases hop <;> simp [TableOp.valid, validName]) rfl demoSymC hrec).1
  simpa [demoSymC] using h

/-! ## Claims about constant folding (parseAddExpr / parseMulExpr /
parsePrimaryExpr) -/

/-- C3 counterexample: the claim says division whose right operand folds to
zero is suppressed "regardless of whether the operands are integer or
floating".  The double branch of `parseMulExpr` (parser.cpp, line 1018)
carries no zero guard: for `left = 1.0`, `right = 0.0` the assignment
`left = *l / *r` executes and the folded value is replaced (with +inf under
IEEE; with rational division by zero, 0 — in either case it is NOT left
unchanged). -/
theorem div_zero_double_not_suppressed :
    applyMul (.vDouble 1) .slash (.vDouble 0) ≠ ConstValue.vDouble 1 := by
  simp [applyMul]

/-- C3 (amended): the silent suppression of division/modulus by zero
applies exactly to the integer branches: integer `/` and `%` with a zero
right operand leave the folded value unchanged (and emit no diagnostic —
the integer branches of `parseMulExpr` contain no `error()` call), while
floating division is performed unconditionally. -/
theorem div_zero_suppression_integer_only :
    (∀ l : Int, applyMul (.vInt l) .slash (.vInt 0) = .vInt l) ∧
    (∀ l : Int, applyMul (.vInt l) .percent (.vInt 0) = .vInt l) ∧
    (∀ l r : Rat, applyMul (.vDouble l) .slash (.vDouble r) = .vDouble (l / r)) := by
  refine ⟨fun l => ?_, fun l => ?_, fun l r => ?_⟩ <;> simp [applyMul]

/-- The scoped-name (constant reference) branch of `Parser::parsePrimaryExpr`
(parser.cpp, lines 1096-1122): resolve via the symbol table; a `Constant`
symbol with a non-null AST node yields that `ConstNode`'s folded value; an
`EnumValue` symbol yields `int64_t(0)` (the source comments it as "the enum
value index (simplified)"); anything else falls through to the
unknown-constant warning and integer zero.  The Boolean records whether
the warning fired.  (A `Constant` symbol always references a `ConstNode` —
parser.cpp line 539 is the only site registering one; the `otherNode` case
of that pattern cannot arise and is modelled as zero without warning,
mirroring the C++ `return` through the cast.) -/
def primaryScopedFold (t : SymbolTable) (parts : List String)
    (isAbsolute : Bool) : ConstValue × Bool :=
  match t.lookupScoped parts isAbsolute with
  | some sym =>
    match sym.kind, sym.node with
    | .constant, some (.constNode v) => (v, false)
    | .constant, some .otherNode => (.vInt 0, false)
    | .enumValue, _ => (.vInt 0, false)
    | _, _ => (.vInt 0, true)
  | none => (.vInt 0, true)

/-- The symbol-table traffic of parsing `enum Color { RED, GREEN };` at
top level (`Parser::parseEnum`): the enum symbol carries its AST node;
the enumerators are registered as `EnumValue` symbols, with no node, in
the surrounding scope. -/
def enumDemoOps : List TableOp :=
  [.add "Color" .enum (some .otherNode),
   .add "RED" .enumValue none,
   .add "GREEN" .enumValue none]

/-- C4 counterexample: `GREEN` is the enumerator at position 1 of
`enum Color { RED, GREEN }`, but folding the primary `GREEN` substitutes
integer 0, not the ordinal 1: `parsePrimaryExpr` returns the constant
`int64_t(0)` for every `EnumValue` symbol. -/
theorem enum_fold_ordinal_cex :
    (["RED", "GREEN"].indexOf "GREEN") = 1 ∧
    primaryScopedFold (runOps SymbolTable.init enumDemoOps) ["GREEN"] false
      = (ConstValue.vInt 0, false) ∧
    ConstValue.vInt 0 ≠ ConstValue.vInt 1 := by
  refine ⟨by decide, by decide, by decide⟩

/-- C4 (amended): for every qualified name appearing as a primary in a
constant expression that resolves via the symbol table to an `EnumValue`
symbol, constant folding substitutes the integer value zero (not the
enumerator's ordinal, which the symbol table does not record), and no
unknown-constant warning is produced. -/
theorem enum_fold_substitutes_zero (t : SymbolTable) (parts : List String)
    (isAbsolute : Bool) (sym : Symbol)
    (hres : t.lookupScoped parts isAbsolute = some sym)
    (hkind : sym.kind = .enumValue) :
    primaryScopedFold t parts isAbsolute = (ConstValue.vInt 0, false) := by
  simp only [primaryScopedFold, hres]
  rw [hkind]

/-- Witness for C4 (amended) at the demo enum table: resolving `GREEN`
yields the recorded `EnumValue` symbol and folds to zero. -/
theorem enum_fold_substitutes_zero_witness :
    primaryScopedFold (runOps SymbolTable.init enumDemoOps) ["GREEN"] false
      = (ConstValue.vInt 0, false) :=
  enum_fold_substitutes_zero (runOps SymbolTable.init enumDemoOps)
    ["GREEN"] false
    { name := "GREEN", fullyQualifiedName := "GREEN", kind := .enumValue,
      node := none, scope := "" }
    (by decide) rfl

/-- C10: in `parseAddExpr` and `parseMulExpr` every arithmetic combination
(`+`, `-`, `*`, `/`) is applied only when both operands hold the same
variant alternative (both `int64_t` or both `double`); whenever the
alternatives differ, the operator and right operand are discarded and the
folded result is the unmodified left operand. -/
theorem mixed_alternative_discards_operation (l r : ConstValue)
    (h : sameArithAlt l r = false) :
    (∀ op : AddOp, applyAdd l op r = l) ∧
    applyMul l .star r = l ∧ applyMul l .slash r = l := by
  refine ⟨fun op => ?_, ?_, ?_⟩ <;>
    cases l <;> cases r <;> first
      | rfl
      | (cases op <;> rfl)
      | simp [sameArithAlt] at h

/-- Witness for C10 at a concrete mixed-type input: `1 + 2.0` leaves the
folded value at the integer `1`. -/
theorem mixed_alternative_discards_operation_witness :
    applyAdd (.vInt 1) .plus (.vDouble 2) = ConstValue.vInt 1 ∧
    applyMul (.vInt 1) .slash (.vDouble 2) = ConstValue.vInt 1 :=
  ⟨(mixed_alternative_discards_operation (.vInt 1) (.vDouble 2) rfl).1 .plus,
   (mixed_alternative_discards_operation (.vInt 1) (.vDouble 2) rfl).2.2⟩

/-! ## Claim about the duplicate-symbol policy (`Scope::addSymbol`) -/

/-- C5: adding a symbol whose simple name already exists in the scope
returns `false` and leaves the symbol map entirely unchanged (so the first
inserted symbol for that name is kept); adding under a fresh name returns
`true`, makes the symbol retrievable under its name, and changes no other
name's entry.  This is the `try_emplace` behaviour of `Scope::addSymbol`
(symbol_table.cpp, lines 1460-1463). -/
theorem addSymbol_duplicate_policy (s : Scope) (sym : Symbol) :
    ((s.lookupLocal sym.name).isSome → s.addSymbol sym = (false, s)) ∧
    (s.lookupLocal sym.name = none →
      (s.addSymbol sym).1 = true ∧
      (s.addSymbol sym).2.lookupLocal sym.name = some sym ∧
      ∀ m, m ≠ sym.name →
        (s.addSymbol sym).2.lookupLocal m = s.lookupLocal m) := by
  obtain ⟨n, f, syms, ch⟩ := s
  constructor
  · intro hdup
    have hfind : (syms.find? (fun p => p.1 == sym.name)).isSome := by
      simpa [Scope.lookupLocal, Scope.symbols] using hdup
    rw [Scope.addSymbol, if_pos hfind]
  · intro hfresh
    have hfind : syms.find? (fun p => p.1 == sym.name) = none := by
      have h0 := hfresh
      simp only [Scope.lookupLocal, Scope.symbols] at h0
      exact Option.map_eq_none.mp h0
    rw [Scope.addSymbol, if_neg (by simp [hfind])]
    refine ⟨rfl, ?_, ?_⟩
    · show ((syms ++ [(sym.name, sym)]).find?
          (fun p => p.1 == sym.name)).map Prod.snd = some sym
      rw [List.find?_append, hfind]
      simp [List.find?_cons]
    · intro m hm
      show ((syms ++ [(sym.name, sym)]).find? (fun p => p.1 == m)).map Prod.snd
        = (syms.find? (fun p => p.1 == m)).map Prod.snd
      rw [List.find?_append]
      have h2 : [(sym.name, sym)].find? (fun p => p.1 == m) = none := by
        simp [List.find?_cons, Ne.symm hm]
      rw [h2]
      cases syms.find? (fun p => p.1 == m) <;> rfl

/-- Witness for C5: a duplicate insertion under the existing name `"a"` is
rejected and keeps the first symbol; a fresh insertion under `"b"`
succeeds. -/
theorem addSymbol_duplicate_policy_witness :
    (Scope.mk "" "" [("a", demoSymM)] []).addSymbol
        { name := "a", fullyQualifiedName := "a", kind := .constant,
          node := none, scope := "" }
      = (false, Scope.mk "" "" [("a", demoSymM)] []) ∧
    ((Scope.mk "" "" [("a", demoSymM)] []).addSymbol demoSymC).1 = true := by
  constructor
  · exact (addSymbol_duplicate_policy (Scope.mk "" "" [("a", demoSymM)] [])
      { name := "a", fullyQualifiedName := "a", kind := .constant,
        node := none, scope := "" }).1 (by decide)
  · exact ((addSymbol_duplicate_policy (Scope.mk "" "" [("a", demoSymM)] [])
      demoSymC).2 (by decide)).1

/-! ## Claim about `lookupScoped` versus its specification

The next definitions follow the WORDS of the specification's resolution
algorithm (spec §4.3), to be compared with `lookupScoped`, which was
translated from the source. -/

/-- Specification-side downward walk: "walk `parts[0..n-2]` as child
scopes, then `lookupLocal(parts[n-1])` in the resulting scope". -/
def specWalkDown : Scope → List String → Option Symbol
  | _, [] => none
  | sc, [last] => sc.lookupLocal last
  | sc, p :: q :: rest =>
    match sc.getChildScope p with
    | some c => specWalkDown c (q :: rest)
    | none => none

/-- Specification-side anchor search: "starting from the current scope and
walking toward global, find the first ancestor that has either a child
scope named `parts[0]` or, when `|parts|==1` (the `single` flag), a local
symbol named `parts[0]`".  Returns that ancestor scope. -/
def specAnchorScope : List Scope → String → Bool → Option Scope
  | [], _, _ => none
  | s :: rest, p, single =>
    if (s.getChildScope p).isSome || (single && (s.lookupLocal p).isSome) then
      some s
    else specAnchorScope rest p single

/-- The resolution algorithm exactly as the claim states it: absolute
paths walk from global; relative paths anchor at the first ancestor having
a child scope named `parts[0]` (or, for a single-part list, a local symbol
named `parts[0]`), then descend through `parts[1..n-2]` (taken through the
child scope named `parts[0]`) and look the last part up locally; absent if
any step fails. -/
def specLookupScoped (g : Scope) (chain : List Scope)
    (parts : List String) (isAbsolute : Bool) : Option Symbol :=
  match parts, isAbsolute with
  | [], _ => none
  | ps, true => specWalkDown g ps
  | [p], false =>
    match specAnchorScope chain p true with
    | some anchor => anchor.lookupLocal p
    | none => none
  | p :: q :: rest, false =>
    match specAnchorScope chain p false with
    | some anchor =>
      match anchor.getChildScope p with
      | some c => specWalkDown c (q :: rest)
      | none => none
    | none => none

/-- The first ancestor holding a local symbol named `p`: the anchor the
source code actually uses for a single-part relative lookup
(`currentScope_->lookup(parts[0])`, symbol_table.cpp line 1551). -/
def specAnchorSymbol : List Scope → String → Option Scope
  | [], _ => none
  | s :: rest, p =>
    if (s.lookupLocal p).isSome then some s else specAnchorSymbol rest p

/-- The amended resolution algorithm: identical to `specLookupScoped`
except in the single-part relative case, which anchors at the first
ancestor holding a local SYMBOL of that name (child scopes are never
consulted there). -/
def amendedLookupScoped (g : Scope) (chain : List Scope)
    (parts : List String) (isAbsolute : Bool) : Option Symbol :=
  match parts, isAbsolute with
  | [], _ => none
  | ps, true => specWalkDown g ps
  | [p], false =>
    match specAnchorSymbol chain p with
    | some anchor => anchor.lookupLocal p
    | none => none
  | p :: q :: rest, false =>
    match specAnchorScope chain p false with
    | some anchor =>
      match anchor.getChildScope p with
      | some c => specWalkDown c (q :: rest)
      | none => none
    | none => none

theorem walkDown_eq (p : String) (rest : List String) (sc : Scope) :
    (match descendPath sc ((p :: rest).dropLast) with
      | some x => x.lookupLocal ((p :: rest).getLast (by simp))
      | none => none) = specWalkDown sc (p :: rest) := by
  induction rest generalizing p sc with
  | nil => rfl
  | cons q rs ih =>
    show (match descendPath sc (p :: (q :: rs).dropLast) with
      | some x => x.lookupLocal ((p :: q :: rs).getLast (by simp))
      | none => none) = _
    rw [descendPath, specWalkDown]
    cases sc.getChildScope p with
    | none => rfl
    | some c =>
      rw [show (p :: q :: rs).getLast (by simp) = (q :: rs).getLast (by simp)
          from List.getLast_cons _]
      exact ih q c

theorem chainLookup_eq (chain : List Scope) (p : String) :
    lookupChain chain p =
      (match specAnchorSymbol chain p with
        | some anchor => anchor.lookupLocal p
        | none => none) := by
  induction chain with
  | nil => rfl
  | cons s rest ih =>
    rw [lookupChain, specAnchorSymbol]
    cases hs : s.lookupLocal p with
    | some sym => rw [if_pos (by simp [hs])]; exact hs.symm
    | none => rw [if_neg (by simp [hs]), ih]

theorem findAnchorChild_eq (chain : List Scope) (p : String) :
    findAnchorChild chain p =
      (match specAnchorScope chain p false with
        | some anchor => anchor.getChildScope p
        | none => none) := by
  induction chain with
  | nil => rfl
  | cons s rest ih =>
    rw [findAnchorChild, specAnchorScope]
    cases hs : s.getChildScope p with
    | some c => rw [if_pos (by simp [hs])]; exact hs.symm
    | none =>
      rw [if_neg (by simp [hs]), ih]

/-- C6 counterexample: the claimed algorithm and the code disagree.  In
the tree `global { symbol x; scope A { scope x {} } }` with current scope
`A`, the single-part relative lookup of `x` anchors (per the claim) at `A`
because `A` owns a child SCOPE named `x`, and the local symbol lookup
there fails — absent; the code instead performs a plain ancestor-chain
symbol lookup and finds the global symbol `x`. -/
theorem lookupScoped_spec_cex :
    (IbOrb.lookupScoped
        (Scope.mk "" "" [("x", demoSymM)]
          [Scope.mk "A" "A" [] [Scope.mk "x" "A::x" [] []]])
        (ancestorChain
          (Scope.mk "" "" [("x", demoSymM)]
            [Scope.mk "A" "A" [] [Scope.mk "x" "A::x" [] []]]) ["A"])
        ["x"] false
      = some demoSymM) ∧
    (specLookupScoped
        (Scope.mk "" "" [("x", demoSymM)]
          [Scope.mk "A" "A" [] [Scope.mk "x" "A::x" [] []]])
        (ancestorChain
          (Scope.mk "" "" [("x", demoSymM)]
            [Scope.mk "A" "A" [] [Scope.mk "x" "A::x" [] []]]) ["A"])
        ["x"] false
      = none) := by
  refine ⟨by decide, by decide⟩

/-- C6 (amended): `SymbolTable::lookupScoped` resolves exactly as the
amended algorithm: absolute paths walk `parts[0..n-2]` as child scopes
from global and look the last part up locally; a multi-part relative path
anchors at the first ancestor owning a child scope named `parts[0]`,
descends through it and `parts[1..n-2]`, then looks the last part up
locally; a single-part relative path is a plain ancestor-chain symbol
lookup (child scopes are not consulted); absent if any step fails. -/
theorem lookupScoped_matches_amended (g : Scope) (chain : List Scope)
    (parts : List String) (isAbsolute : Bool) :
    IbOrb.lookupScoped g chain parts isAbsolute
      = amendedLookupScoped g chain parts isAbsolute := by
  match parts, isAbsolute with
  | [], b => cases b <;> rfl
  | [p], true =>
    show (match descendPath g (([p] : List String).dropLast) with
      | some sc => sc.lookupLocal (([p] : List String).getLast (by simp))
      | none => none) = specWalkDown g [p]
    exact walkDown_eq p [] g
  | p :: q :: rest, true =>
    show (match descendPath g ((p :: q :: rest).dropLast) with
      | some sc => sc.lookupLocal ((p :: q :: rest).getLast (by simp))
      | none => none) = specWalkDown g (p :: q :: rest)
    exact walkDown_eq p (q :: rest) g
  | [p], false =>
    show lookupChain chain p =
      (match specAnchorSymbol chain p with
        | some anchor => anchor.lookupLocal p
        | none => none)
    exact chainLookup_eq chain p
  | p :: q :: rest, false =>
    show (match findAnchorChild chain p with
      | none => none
      | some anchor =>
        match descendPath anchor ((q :: rest).dropLast) with
        | some sc => sc.lookupLocal ((q :: rest).getLast (by simp))
        | none => none)
      = (match specAnchorScope chain p false with
        | some anchor =>
          match anchor.getChildScope p with
          | some c => specWalkDown c (q :: rest)
          | none => none
        | none => none)
    rw [findAnchorChild_eq]
    cases specAnchorScope chain p false with
    | none => rfl
    | some anchor =>
      show (match anchor.getChildScope p with
        | none => none
        | some a2 =>
          match descendPath a2 ((q :: rest).dropLast) with
          | some sc => sc.lookupLocal ((q :: rest).getLast (by simp))
          | none => none)
        = (match anchor.getChildScope p with
          | some c => specWalkDown c (q :: rest)
          | none => none)
      cases anchor.getChildScope p with
      | none => rfl
      | some c => exact walkDown_eq q rest c

/-! ## Parser error recovery (panic mode)

`Parser::errorAt` (parser.cpp, lines 124-138) and `Parser::synchronize`
(lines 146-168).  Token kinds: error recovery inspects only EOF, `;`, `}`
and the definition-opening keywords; every other token kind behaves
identically there and is collected under `other` (the `Unknown` and
`LineDirective` kinds never reach this code — `Parser::advance` filters
them). -/

/-- The token kinds `TokenType` (lexer.hpp) distinguishes that matter to
error recovery. -/
inductive PTok where
  | eof
  | semicolon
  | rightBrace
  | leftBrace
  | identifier
  | kwModule
  | kwInterface
  | kwStruct
  | kwUnion
  | kwEnum
  | kwTypedef
  | kwConst
  | kwException
  | kwAbstract
  | kwLocal
  | other
  deriving DecidableEq

/-- `Parser::isDefinitionStart` (parser.cpp, lines 170-186). -/
def isDefinitionStart : PTok → Bool
  | .kwModule | .kwInterface | .kwStruct | .kwUnion | .kwEnum
  | .kwTypedef | .kwConst | .kwException | .kwAbstract | .kwLocal => true
  | _ => false

/-- The parser state components touched by error reporting and recovery
(parser.hpp): current and previous token, the not-yet-delivered tokens,
the error list, and the `panicMode_` / `hadError_` flags. -/
structure ParserState where
  currentToken : PTok
  previousToken : PTok
  pending : List PTok
  errors : List String
  panicMode : Bool
  hadError : Bool

/-- `Parser::advance` (parser.cpp, lines 61-81): previous := current;
current := the next token, an endless `Eof` once input is exhausted. -/
def advanceTok (s : ParserState) : ParserState :=
  match s.pending with
  | [] =>
    { s with
      previousToken := s.currentToken
      currentToken := .eof }
  | t :: ts =>
    { s with
      previousToken := s.currentToken
      currentToken := t
      pending := ts }

/-- `Parser::errorAt` (parser.cpp, lines 124-138): in panic mode the
report is dropped entirely; otherwise panic mode and the error flag are
set and the formatted message is appended. -/
def errorAt (s : ParserState) (msg : String) : ParserState :=
  if s.panicMode then s
  else { s with panicMode := true, hadError := true,
                errors := s.errors ++ [msg] }

/-- The scan loop of `Parser::synchronize` (parser.cpp, lines 149-167):
stop after a consumed `;`, after a consumed `}` (also consuming a
following `;`), at a definition-opening keyword, or at EOF; otherwise
advance and repeat. -/
def syncLoop (s : ParserState) : ParserState :=
  if s.currentToken = .eof then s
  else if s.previousToken = .semicolon then s
  else if s.previousToken = .rightBrace then
    (if s.currentToken = .semicolon then advanceTok s else s)
  else if isDefinitionStart s.currentToken then s
  else syncLoop (advanceTok s)
termination_by 2 * s.pending.length +
  (if s.currentToken = PTok.eof then 0 else 1)
decreasing_by
  rcases hp : s.pending with _ | ⟨t, ts⟩ <;>
    simp_all [advanceTok, hp] <;> split <;> omega

/-- `Parser::synchronize` (parser.cpp, lines 146-168): clear `panicMode_`,
then scan. -/
def synchronize (s : ParserState) : ParserState :=
  syncLoop { s with panicMode := false }

theorem advanceTok_state (s : ParserState) :
    (advanceTok s).panicMode = s.panicMode ∧
    (advanceTok s).errors = s.errors ∧
    (advanceTok s).previousToken = s.currentToken := by
  cases hp : s.pending <;> simp [advanceTok, hp]

theorem syncLoop_state (s : ParserState) :
    (syncLoop s).panicMode = s.panicMode ∧ (syncLoop s).errors = s.errors := by
  induction s using syncLoop.induct with
  | case1 s h => rw [syncLoop, if_pos h]; exact ⟨rfl, rfl⟩
  | case2 s h1 h2 => rw [syncLoop, if_neg h1, if_pos h2]; exact ⟨rfl, rfl⟩
  | case3 s h1 h2 h3 h4 =>
    rw [syncLoop, if_neg h1, if_neg h2, if_pos h3, if_pos h4]
    exact ⟨(advanceTok_state s).1, (advanceTok_state s).2.1⟩
  | case4 s h1 h2 h3 h4 =>
    rw [syncLoop, if_neg h1, if_neg h2, if_pos h3, if_neg h4]
    exact ⟨rfl, rfl⟩
  | case5 s h1 h2 h3 h4 =>
    rw [syncLoop, if_neg h1, if_neg h2, if_neg h3, if_pos h4]
    exact ⟨rfl, rfl⟩
  | case6 s h1 h2 h3 h4 ih =>
    rw [syncLoop, if_neg h1, if_neg h2, if_neg h3, if_neg h4]
    refine ⟨?_, ?_⟩
    · rw [ih.1, (advanceTok_state s).1]
    · rw [ih.2, (advanceTok_state s).2.1]

theorem syncLoop_post (s : ParserState) :
    (syncLoop s).previousToken = .semicolon ∨
    ((syncLoop s).previousToken = .rightBrace ∧
      (syncLoop s).currentToken ≠ .semicolon) ∨
    isDefinitionStart (syncLoop s).currentToken = true ∨
    (syncLoop s).currentToken = .eof := by
  induction s using syncLoop.induct with
  | case1 s h =>
    rw [syncLoop, if_pos h]
    exact Or.inr (Or.inr (Or.inr h))
  | case2 s h1 h2 =>
    rw [syncLoop, if_neg h1, if_pos h2]
    exact Or.inl h2
  | case3 s h1 h2 h3 h4 =>
    rw [syncLoop, if_neg h1, if_neg h2, if_pos h3, if_pos h4]
    exact Or.inl (by rw [(advanceTok_state s).2.2, h4])
  | case4 s h1 h2 h3 h4 =>
    rw [syncLoop, if_neg h1, if_neg h2, if_pos h3, if_neg h4]
    exact Or.inr (Or.inl ⟨h3, h4⟩)
  | case5 s h1 h2 h3 h4 =>
    rw [syncLoop, if_neg h1, if_neg h2, if_neg h3, if_pos h4]
    exact Or.inr (Or.inr (Or.inl h4))
  | case6 s h1 h2 h3 h4 ih =>
    rw [syncLoop, if_neg h1, if_neg h2, if_neg h3, if_neg h4]
    exact ih

/-- C7: panic-mode suppression.  Once the parser reports an error,
`errorAt` has set `panicMode` and every further `errorAt` leaves the state
(in particular the error list) fully untouched; `advance` alters neither
the flag nor the list, and only `synchronize` clears the flag.
`synchronize` preserves the error list and consumes tokens until it has
passed a `;`, passed a `}` (consuming an optional following `;`), reached
a definition-opening keyword (module, interface, struct, union, enum,
typedef, const, exception, abstract, local), or reached EOF. -/
theorem panic_mode_recovery :
    (∀ (s : ParserState) (msg : String), s.panicMode = true →
      errorAt s msg = s) ∧
    (∀ (s : ParserState) (msg : String),
      (errorAt s msg).panicMode = true ∧
      (s.panicMode = false → (errorAt s msg).errors = s.errors ++ [msg])) ∧
    (∀ s : ParserState, (advanceTok s).panicMode = s.panicMode ∧
      (advanceTok s).errors = s.errors) ∧
    (∀ s : ParserState, (synchronize s).panicMode = false ∧
      (synchronize s).errors = s.errors) ∧
    (∀ s : ParserState,
      (synchronize s).previousToken = .semicolon ∨
      ((synchronize s).previousToken = .rightBrace ∧
        (synchronize s).currentToken ≠ .semicolon) ∨
      isDefinitionStart (synchronize s).currentToken = true ∨
      (synchronize s).currentToken = .eof) := by
  refine ⟨?_, ?_, ?_, ?_, ?_⟩
  · intro s msg h
    rw [errorAt, if_pos h]
  · intro s msg
    constructor
    · rw [errorAt]
      split <;> simp_all
    · intro h
      rw [errorAt, if_neg (by simp [h])]
  · intro s
    exact ⟨(advanceTok_state s).1, (advanceTok_state s).2.1⟩
  · intro s
    exact ⟨(syncLoop_state _).1, (syncLoop_state _).2⟩
  · intro s
    exact syncLoop_post _

/-- Witness for C7 at concrete states: a report in panic mode changes
nothing; a report out of panic mode appends its diagnostic; synchronize on
the panicked state clears the flag and keeps the error list. -/
theorem panic_mode_recovery_witness :
    errorAt ⟨.other, .other, [.semicolon], ["e1"], true, true⟩ "e2"
      = ⟨.other, .other, [.semicolon], ["e1"], true, true⟩ ∧
    (errorAt ⟨.other, .other, [], [], false, false⟩ "e1").errors
      = [] ++ ["e1"] ∧
    (synchronize ⟨.other, .other, [.semicolon], ["e1"], true, true⟩).panicMode
      = false :=
  ⟨panic_mode_recovery.1 _ "e2" rfl,
   (panic_mode_recovery.2.1 _ "e1").2 rfl,
   (panic_mode_recovery.2.2.2.1 _).1⟩

/-! ## The C++11 code generator (`cpp11_generator.cpp`) -/

/-- `BasicType` from ast.hpp. -/
inductive BasicType where
  | void
  | boolean
  | char
  | wchar
  | octet
  | short
  | ushort
  | long
  | ulong
  | longlong
  | ulonglong
  | float
  | double
  | longdouble
  | any
  | object
  deriving DecidableEq

/-- The `TypeNode` variants of ast.hpp as the generator consumes them. -/
inductive TypeNode where
  | basic (b : BasicType)
  | sequence (elem : TypeNode) (bound : Option Nat)
  | string (bound : Option Nat) (wide : Bool)
  | scopedName (parts : List String) (isAbsolute : Bool)
  | array (elem : TypeNode) (dims : List Nat)
  deriving DecidableEq

/-- `Cpp11Generator::mapBasicType` (cpp11_generator.cpp, lines 232-252). -/
def mapBasicType : BasicType → String
  | .void => "void"
  | .boolean => "bool"
  | .char => "char"
  | .wchar => "wchar_t"
  | .octet => "uint8_t"
  | .short => "int16_t"
  | .ushort => "uint16_t"
  | .long => "int32_t"
  | .ulong => "uint32_t"
  | .longlong => "int64_t"
  | .ulonglong => "uint64_t"
  | .float => "float"
  | .double => "double"
  | .longdouble => "long double"
  | .any => "std::any"
  | .object => "Object"

/-- `Cpp11Generator::mapType`: dispatch into the type visitors
(cpp11_generator.cpp, lines 145-182 and 254-260).  The `ArrayTypeNode`
visitor wraps the element type with `std::array<-, dim>` iterating the
dimensions in REVERSE (`rbegin..rend`), so the LAST dimension ends up
innermost. -/
def mapType : TypeNode → String
  | .basic b => mapBasicType b
  | .sequence elem _ => "std::vector<" ++ mapType elem ++ ">"
  | .string _ wide => if wide then "std::wstring" else "std::string"
  | .scopedName parts isAbsolute =>
    (if isAbsolute then "::" else "") ++ joinQual parts
  | .array elem dims =>
    dims.foldr
      (fun d acc => "std::array<" ++ acc ++ ", " ++ toString d ++ ">")
      (mapType elem)

/-- The typedef declarator of ast.hpp (`TypedefDeclarator`): name plus
optional array dimensions. -/
structure TypedefDeclarator where
  name : String
  arrayDimensions : List Nat
  deriving DecidableEq

/-- The alias target built by `Cpp11Generator::generateTypedef`
(cpp11_generator.cpp, lines 540-545): starting from the mapped base type,
wrap with `std::array<-, dim>` iterating the declarator's dimensions in
reverse (the guarding `if (!empty)` is a no-op: the reverse loop over an
empty vector does nothing). -/
def typedefAliasType (baseType : String) (dims : List Nat) : String :=
  dims.foldr
    (fun d acc => "std::array<" ++ acc ++ ", " ++ toString d ++ ">")
    baseType

/-- `Cpp11Generator::generateTypedef` (cpp11_generator.cpp, lines
533-550): one `using` line per declarator (each prefixed by the current
indentation), then a blank line. -/
def generateTypedefLines (ind : String) (originalType : TypeNode)
    (declarators : List TypedefDeclarator) : List String :=
  declarators.map (fun decl =>
    ind ++ ("using " ++ decl.name ++ " = "
      ++ typedefAliasType (mapType originalType) decl.arrayDimensions ++ ";"))
  ++ [""]

/-- C8: array typedefs nest `std::array` right-associatively with the last
dimension innermost: `typedef T X[a][b]` emits
`using X = std::array<std::array<mapped(T), b>, a>;`, and in particular
`typedef octet UUID[16];` emits `using UUID = std::array<uint8_t, 16>;`
(at top level, followed by the generator's blank line). -/
theorem typedef_array_right_associative :
    (∀ (t : TypeNode) (x : String) (a b : Nat),
      generateTypedefLines "" t [⟨x, [a, b]⟩]
        = ["using " ++ x ++ " = std::array<std::array<" ++ mapType t ++ ", "
            ++ toString b ++ ">, " ++ toString a ++ ">;", ""]) ∧
    generateTypedefLines "" (TypeNode.basic .octet) [⟨"UUID", [16]⟩]
      = ["using UUID = std::array<uint8_t, 16>;", ""] := by
  constructor
  · intro t x a b
    simp only [generateTypedefLines, typedefAliasType, List.map, List.foldr,
      List.cons_append, List.nil_append, List.cons.injEq, and_self, and_true]
    apply String.ext
    simp only [String.data_append]
    simp [List.append_assoc, List.cons_append, List.nil_append]
  · rfl

/-- The `GeneratorConfig` fields read by the embedded emission paths, with
their source defaults: `addDoxygen = true`, `indent = "    "` (four
spaces; cpp11_generator.hpp, lines 18-28). -/
structure GenConfig where
  addDoxygen : Bool
  indent : String

/-- Source defaults of `GeneratorConfig`. -/
def defaultGenConfig : GenConfig :=
  { addDoxygen := true, indent := "    " }

/-- `Cpp11Generator::getIndent` (cpp11_generator.cpp, lines 198-204): the
configured indent string repeated once per level. -/
def getIndent (cfg : GenConfig) : Nat → String
  | 0 => ""
  | n + 1 => getIndent cfg n ++ cfg.indent

/-- `StructMemberNode` (ast.hpp): member type and name. -/
structure StructMemberNode where
  type : TypeNode
  name : String
  deriving DecidableEq

/-- The `operator==` comparison expression of
`Cpp11Generator::generateStruct` (cpp11_generator.cpp, lines 376-380):
`name == other.name` per member, joined by `" && "`. -/
def structComparison (members : List StructMemberNode) : String :=
  match members with
  | [] => ""
  | m :: rest =>
    rest.foldl (fun acc x => acc ++ " && " ++ (x.name ++ " == other." ++ x.name))
      (m.name ++ " == other." ++ m.name)

/-- `Cpp11Generator::generateStruct` (cpp11_generator.cpp, lines 353-396)
as the list of header lines it emits (one entry per `writeHeaderLine`
call; an empty entry is a blank line; every non-empty line is prefixed by
the indentation of its level).  Member names are written VERBATIM —
no call to `sanitizeIdentifier` appears on this or any other emission
path. -/
def generateStructLines (cfg : GenConfig) (level : Nat) (name : String)
    (members : List StructMemberNode) : List String :=
  let ind := getIndent cfg level
  let ind1 := getIndent cfg (level + 1)
  let ind2 := getIndent cfg (level + 2)
  (if cfg.addDoxygen then
    [ind ++ "/\x2a\x2a", ind ++ (" \x2a @brief IDL struct " ++ name),
     ind ++ " \x2a/"]
   else [])
  ++ [ind ++ ("struct " ++ name ++ " \x7b")]
  ++ members.map (fun m => ind1 ++ (mapType m.type ++ " " ++ m.name ++ ";"))
  ++ [""]
  ++ [ind1 ++ ("bool operator==(const " ++ name ++ "& other) const \x7b")]
  ++ (if members.isEmpty then
       [ind2 ++ "(void)other;", ind2 ++ "return true;"]
      else [ind2 ++ ("return " ++ structComparison members ++ ";")])
  ++ [ind1 ++ "\x7d"]
  ++ [""]
  ++ [ind1 ++ ("bool operator!=(const " ++ name ++ "& other) const \x7b")]
  ++ [ind2 ++ "return !(\x2athis == other);"]
  ++ [ind1 ++ "\x7d"]
  ++ [ind ++ "\x7d;"]
  ++ [""]

/-- `Cpp11Generator::sanitizeIdentifier` (cpp11_generator.cpp, lines
666-705): the fixed reserved-word map, appending an underscore.  The
function is declared and defined but NEVER invoked by any code path of
the generator. -/
def sanitizeIdentifier (name : String) : String :=
  let reserved : List (String × String) :=
    [("class", "class_"), ("struct", "struct_"), ("union", "union_"),
     ("enum", "enum_"), ("template", "template_"), ("typename", "typename_"),
     ("virtual", "virtual_"), ("public", "public_"), ("private", "private_"),
     ("protected", "protected_"), ("friend", "friend_"),
     ("namespace", "namespace_"), ("using", "using_"), ("try", "try_"),
     ("catch", "catch_"), ("throw", "throw_"), ("new", "new_"),
     ("delete", "delete_"), ("this", "this_"), ("operator", "operator_"),
     ("sizeof", "sizeof_"), ("alignof", "alignof_"),
     ("decltype", "decltype_"), ("nullptr", "nullptr_"),
     ("constexpr", "constexpr_"), ("static_cast", "static_cast_"),
     ("dynamic_cast", "dynamic_cast_"), ("const_cast", "const_cast_"),
     ("reinterpret_cast", "reinterpret_cast_")]
  match reserved.find? (fun p => p.1 == name) with
  | some p => p.2
  | none => name

/-- C2 (code bug): `sanitizeIdentifier` maps the reserved word `new` to
`new_`, yet the generator never calls it: for the IDL input
`struct S { octet new; };` the emitted header contains the raw member
line `uint8_t new;` (invalid C++), and the sanitized spelling appears
nowhere in the emitted struct. -/
theorem sanitize_identifier_never_applied :
    sanitizeIdentifier "new" = "new_" ∧
    ((generateStructLines defaultGenConfig 0 "S"
        [⟨TypeNode.basic .octet, "new"⟩]).contains "    uint8_t new;"
      = true) ∧
    ((generateStructLines defaultGenConfig 0 "S"
        [⟨TypeNode.basic .octet, "new"⟩]).contains "    uint8_t new_;"
      = false) := by
  refine ⟨by decide, by decide, by decide⟩

/-! ## Declarator lists (`Parser::parseDeclarators` / `parseStructMember`)

Token-level model of declarator parsing.  A dimension expression inside
`[...]` goes through `parseConstExpr` in the source (the folding steps are
embedded above as `applyAdd` / `applyMul` / `primaryScopedFold`); here a
dimension is modelled as its already-folded integer literal, which is the
`IntegerLiteral` primary case of that grammar. -/

/-- The token kinds consumed by declarator parsing. -/
inductive DTok where
  | ident (text : String)
  | lbracket
  | rbracket
  | intLit (v : Int)
  | comma
  | semicolon
  | other
  deriving DecidableEq

/-- `Parser::Declarator` (parser.hpp, lines 1404-1407): name plus
`size_t` array dimensions. -/
structure Declarator where
  name : String
  arrayDimensions : List Nat
  deriving DecidableEq

/-- `static_cast<size_t>` of a folded 64-bit value (parser.cpp, lines
856-860): reduction modulo `2^64`. -/
def castSize (v : Int) : Nat := (v % (2 ^ 64 : Int)).toNat

/-- The dimension loop of `Parser::parseDeclarator` (parser.cpp, lines
853-863): while a `[` follows, fold the dimension expression (here: the
integer literal), cast it to `size_t`, and expect `]`. -/
def parseDims : List DTok → List Nat → List Nat × List DTok
  | .lbracket :: .intLit v :: .rbracket :: rest, acc =>
    parseDims rest (acc ++ [castSize v])
  | ts, acc => (acc, ts)

/-- `Parser::parseDeclarator` (parser.cpp, lines 842-866): an identifier
followed by the dimension loop; when no identifier is present the error
path returns the empty declarator without consuming anything. -/
def parseDeclaratorTok : List DTok → Declarator × List DTok
  | .ident nm :: rest =>
    let pr := parseDims rest []
    (⟨nm, pr.1⟩, pr.2)
  | ts => (⟨"", []⟩, ts)

theorem parseDims_length (ts : List DTok) (acc : List Nat) :
    (parseDims ts acc).2.length ≤ ts.length := by
  induction ts, acc using parseDims.induct with
  | case1 v rest acc2 ih =>
    rw [parseDims]
    simp only [List.length_cons]
    exact le_trans ih (by omega)
  | case2 ts2 acc2 h =>
    rw [parseDims.eq_def]
    split
    · exfalso
      exact h _ _ rfl
    · simp

theorem parseDeclaratorTok_length (ts : List DTok) :
    (parseDeclaratorTok ts).2.length ≤ ts.length := by
  cases ts with
  | nil => simp [parseDeclaratorTok]
  | cons t rest =>
    cases t <;> simp [parseDeclaratorTok] <;>
      exact le_trans (parseDims_length rest []) (by simp)

/-- `Parser::parseDeclarators` (parser.cpp, lines 868-878): parse one
declarator, then keep parsing as long as a `,` follows; return ALL
declarators and the remaining stream. -/
def parseDeclaratorsTok (ts : List DTok) : List Declarator × List DTok :=
  let pr := parseDeclaratorTok ts
  match h2 : pr.2 with
  | .comma :: rest2 =>
    let pr2 := parseDeclaratorsTok rest2
    (pr.1 :: pr2.1, pr2.2)
  | _ => (pr.1 :: [], pr.2)
termination_by ts.length
decreasing_by
  have hle := parseDeclaratorTok_length ts
  rw [h2] at hle
  simp at hle
  omega

/-- `ast::StructMemberNode` construction at the tail of
`Parser::parseStructMember` (parser.cpp, lines 677-691): only
`declarators[0]` is consulted; array dimensions wrap the member type in an
`ArrayTypeNode`; an empty declarator list is the error path returning
null. -/
def buildStructMember (type : TypeNode) (declarators : List Declarator) :
    Option StructMemberNode :=
  match declarators with
  | [] => none
  | decl :: _ =>
    some ⟨if decl.arrayDimensions.isEmpty then type
          else TypeNode.array type decl.arrayDimensions, decl.name⟩

/-- Token encoding of one declarator's dimensions. -/
def dimTokens : List Nat → List DTok
  | [] => []
  | n :: rest => .lbracket :: .intLit (n : Int) :: .rbracket :: dimTokens rest

/-- Token encoding of one declarator. -/
def declTokens (d : Declarator) : List DTok :=
  .ident d.name :: dimTokens d.arrayDimensions

/-- Token encoding of a comma-separated declarator list. -/
def declListTokens : List Declarator → List DTok
  | [] => []
  | [d] => declTokens d
  | d :: ds => declTokens d ++ (.comma :: declListTokens ds)

theorem castSize_ofNat (n : Nat) (h : n < 2 ^ 64) :
    castSize (n : Int) = n := by
  rw [castSize, Int.emod_eq_of_lt (by positivity) (by exact_mod_cast h)]
  simp

theorem parseDims_stop (ts : List DTok) (acc : List Nat)
    (ht : ts.head? ≠ some DTok.lbracket) :
    parseDims ts acc = (acc, ts) := by
  rw [parseDims.eq_def]
  split
  · exfalso
    simp at ht
  · rfl

theorem parseDims_encode (dims : List Nat) (t : List DTok) (acc : List Nat)
    (hb : ∀ n ∈ dims, n < 2 ^ 64) (ht : t.head? ≠ some DTok.lbracket) :
    parseDims (dimTokens dims ++ t) acc = (acc ++ dims, t) := by
  induction dims generalizing acc with
  | nil =>
    simp only [dimTokens, List.nil_append]
    rw [parseDims_stop t acc ht]
    simp
  | cons n rest ih =>
    simp only [dimTokens, List.cons_append]
    rw [parseDims, castSize_ofNat n (hb n (by simp)),
        ih (acc ++ [n]) (fun m hm => hb m (List.mem_cons_of_mem _ hm))]
    simp

theorem parseDeclaratorsTok_eq (ts : List DTok) :
    parseDeclaratorsTok ts =
      (match (parseDeclaratorTok ts).2 with
        | .comma :: rest2 =>
          ((parseDeclaratorTok ts).1 :: (parseDeclaratorsTok rest2).1,
           (parseDeclaratorsTok rest2).2)
        | _ => ([(parseDeclaratorTok ts).1], (parseDeclaratorTok ts).2)) := by
  rw [parseDeclaratorsTok]
  split
  · rename_i rest2 heq
    rw [heq]
  · rename_i hno
    split
    · rename_i rest2 heq2
      exact absurd heq2 (fun h => hno _ h)
    · rfl

theorem parseDeclaratorsTok_encode (ds : List Declarator) (t : List DTok)
    (hne : ds ≠ [])
    (hb : ∀ d ∈ ds, ∀ n ∈ d.arrayDimensions, n < 2 ^ 64)
    (ht1 : t.head? ≠ some DTok.lbracket) (ht2 : t.head? ≠ some DTok.comma) :
    parseDeclaratorsTok (declListTokens ds ++ t) = (ds, t) := by
  induction ds with
  | nil => exact absurd rfl hne
  | cons d ds ih =>
    rcases ds with _ | ⟨d2, ds2⟩
    · show parseDeclaratorsTok (declTokens d ++ t) = ([d], t)
      have hpd : parseDims (dimTokens d.arrayDimensions ++ t) []
          = ([] ++ d.arrayDimensions, t) :=
        parseDims_encode d.arrayDimensions t [] (hb d (by simp)) ht1
      rw [parseDeclaratorsTok_eq]
      simp only [declTokens, List.cons_append, parseDeclaratorTok, hpd,
        List.nil_append]
      split
      · simp at ht2
      · rfl
    · show parseDeclaratorsTok
          ((declTokens d ++ (DTok.comma :: declListTokens (d2 :: ds2))) ++ t)
        = (d :: d2 :: ds2, t)
      have hpd : parseDims
          (dimTokens d.arrayDimensions
            ++ (DTok.comma :: (declListTokens (d2 :: ds2) ++ t))) []
          = ([] ++ d.arrayDimensions,
             DTok.comma :: (declListTokens (d2 :: ds2) ++ t)) :=
        parseDims_encode d.arrayDimensions _ [] (hb d (by simp)) (by simp)
      rw [parseDeclaratorsTok_eq]
      simp only [declTokens, List.cons_append, List.append_assoc,
        parseDeclaratorTok, hpd, List.nil_append]
      rw [ih (by simp) (fun x hx => hb x (List.mem_cons_of_mem _ hx))]

/-- C9: for a struct/exception member declaration listing several
comma-separated declarators (e.g. `long a, b;`), the parser consumes ALL
declarators from the token stream (`parseDeclarators` loops over every
`,`), yet the `StructMemberNode` is constructed from `declarators[0]`
alone: the node depends only on the first declarator, so the remaining
names appear neither in the AST nor in the generated header (the struct
emission maps exclusively over the node member list —
`generateStructLines`). -/
theorem struct_member_uses_first_declarator_only
    (type : TypeNode) (d : Declarator) (ds : List Declarator) (t : List DTok)
    (hb : ∀ x ∈ d :: ds, ∀ n ∈ x.arrayDimensions, n < 2 ^ 64)
    (ht1 : t.head? ≠ some DTok.lbracket) (ht2 : t.head? ≠ some DTok.comma) :
    parseDeclaratorsTok (declListTokens (d :: ds) ++ t) = (d :: ds, t) ∧
    buildStructMember type (d :: ds)
      = some ⟨if d.arrayDimensions.isEmpty then type
              else TypeNode.array type d.arrayDimensions, d.name⟩ ∧
    (∀ ds2, buildStructMember type (d :: ds2)
      = buildStructMember type (d :: ds)) :=
  ⟨parseDeclaratorsTok_encode _ t (by simp) hb ht1 ht2, rfl, fun _ => rfl⟩

/-- Witness for C9 at the member declaration `long a, b;`: both
declarators are consumed, the member is named `a`, and `b` is dropped. -/
theorem struct_member_uses_first_declarator_only_witness :
    parseDeclaratorsTok
        [DTok.ident "a", DTok.comma, DTok.ident "b", DTok.semicolon]
      = ([⟨"a", []⟩, ⟨"b", []⟩], [DTok.semicolon]) ∧
    buildStructMember (TypeNode.basic .long) [⟨"a", []⟩, ⟨"b", []⟩]
      = some ⟨TypeNode.basic .long, "a"⟩ := by
  have h := struct_member_uses_first_declarator_only (TypeNode.basic .long)
    ⟨"a", []⟩ [⟨"b", []⟩] [DTok.semicolon] (by decide) (by decide) (by decide)
  exact ⟨h.1, by simpa using h.2.1⟩

end IbOrb
